import Mathlib

/-!
# Memory partition simulator (`src/src/Simulator.jsx`)

A shallow embedding of the two state-changing handlers of the `MemorySimulator`
component, `allocateMemory` and `freeMemory`, together with theorems about them.

Modelling conventions.

* A block `{ id, size }` is a `Block`; `id === null` is `id = none`.
* Sizes are JavaScript numbers (binary64) that hold integers: they come from `parseInt`
  and from the subtraction of line 87 and the addition of line 116. A size is modelled
  by the `Int` it holds; the subtraction and the addition are the exact operation followed
  by `toDouble`, the rounding to the nearest double with ties to the even significand.
  Comparisons of doubles are exact.
* `parseInt(processSize)` is either `NaN` or a double that holds an integer: `Option Int`,
  `none` = `NaN`.
* Only finite numbers are modelled: `parseInt` results and sums of magnitude `2 ^ 1024` and
  more, which are `Infinity` in JavaScript, are outside the model.
* The React state `memory` is passed explicitly and the value handed to `setMemory`
  is returned.
-/

namespace MemorySimulator

/-- One entry of the `memory` array: `{ id, size }`, with `id === null` for a vacant block. -/
structure Block where
  id : Option String
  size : Int
deriving DecidableEq, Repr

/-- Initial state, `useState([{ id: null, size: 1024 }])` (line 9). -/
def initialMemory : List Block := [{ id := none, size := 1024 }]

/-- Effect of `blocks.splice(start, deleteCount, ...items)` on the array. -/
def splice (blocks : List Block) (start deleteCount : Nat) (items : List Block) : List Block :=
  blocks.take start ++ items ++ blocks.drop (start + deleteCount)

/-- Distance between neighbouring doubles at the magnitude of `m`: the least power of two
`u`, starting from `u` and doubling at most `fuel` times, with `m / u < 2 ^ 53`. A finite
double is below `2 ^ 1024`, so 1024 doublings suffice. -/
def doubleUnit : Nat → Nat → Nat → Nat
  | 0, _, u => u
  | fuel + 1, m, u => if m / u < 2 ^ 53 then u else doubleUnit fuel m (2 * u)

/-- The double nearest to the natural number `m`: `m` itself below `2 ^ 53`, otherwise the
nearest multiple of `doubleUnit`, a tie going to the even significand. -/
def roundNat (m : Nat) : Nat :=
  let u := doubleUnit 1024 m 1
  let q := m / u
  let r := m % u
  if 2 * r < u then q * u
  else if u < 2 * r then (q + 1) * u
  else if q % 2 = 0 then q * u else (q + 1) * u

/-- The double nearest to the integer `x` (round to nearest, ties to even): the value that
a JavaScript addition or subtraction stores when its exact result is `x`. -/
def toDouble (x : Int) : Int :=
  if x < 0 then -((roundNat x.natAbs : Nat) : Int) else ((roundNat x.natAbs : Nat) : Int)

/-- The comparison `newBlockSize < bestSize` of line 42; `bestSize` is `Infinity`
(`none`) until a block has been chosen. -/
def ltBestSize (newBlockSize : Int) : Option Int → Bool
  | none => true
  | some bestSize => decide (newBlockSize < bestSize)

/-- The `for` loop of lines 40-47, from index `i` on; the first argument is the part
of `memory` from index `i`, `chosenIndex` and `bestSize` are the loop variables. -/
def bestFitLoop (newBlockSize : Int) : List Block → Nat → Int → Option Int → Int
  | [], _, chosenIndex, _ => chosenIndex
  | b :: rest, i, chosenIndex, bestSize =>
    if b.id = none ∧ b.size ≥ newBlockSize ∧ ltBestSize newBlockSize bestSize = true then
      bestFitLoop newBlockSize rest (i + 1) (i : Int) (some b.size)
    else
      bestFitLoop newBlockSize rest (i + 1) chosenIndex bestSize

/-- The `for` loop of lines 58-65, from index `i` on; the first argument is the part
of `memory` from index `i`. The result is `chosenIndex` (`-1` when the loop ends
without `break`). -/
def firstFitLoop (newBlockSize : Int) : List Block → Nat → Int
  | [], _ => -1
  | b :: rest, i =>
    if b.id = none ∧ b.size ≥ newBlockSize then (i : Int)
    else firstFitLoop newBlockSize rest (i + 1)

/-- Selection phase of `allocateMemory` (lines 28-66): the value of `chosenIndex`
when line 78 is reached. -/
def chooseIndex (memory : List Block) (newBlockSize : Int) (strategy : String) : Int :=
  if strategy = "best" then bestFitLoop newBlockSize memory 0 (-1) none
  else if strategy = "first" then firstFitLoop newBlockSize memory 0
  else -1

/-- How a call of `allocateMemory` ends. -/
inductive AllocOutcome where
  /-- The early `return` of line 25. -/
  | invalid
  /-- The call `setMemory(blocks)` of line 94. -/
  | stored (blocks : List Block)
  /-- The call `alert('No sufficient memory block found')` of line 97. -/
  | noBlock
  /-- `blocks[chosenIndex]` is `undefined`, so `block.size` throws. -/
  | typeError
deriving DecidableEq, Repr

/-- Body of `allocateMemory` (lines 19-100). `newBlockSize` is the value of
`parseInt(processSize)`; it is falsy when it is `NaN` or `0`, and `processId` is
falsy when it is the empty string. The remainder `block.size - newBlockSize` of line 87
is a subtraction of doubles: the exact difference rounded by `toDouble`. -/
def allocateOutcome (memory : List Block) (processId : String) (newBlockSize : Option Int)
    (strategy : String) : AllocOutcome :=
  match newBlockSize with
  | none => .invalid
  | some newBlockSize =>
    if newBlockSize = 0 ∨ processId = "" then .invalid
    else
      let chosenIndex := chooseIndex memory newBlockSize strategy
      if chosenIndex ≠ -1 then
        match memory[chosenIndex.toNat]? with
        | none => .typeError
        | some block =>
          if block.size ≥ newBlockSize then
            .stored (splice memory chosenIndex.toNat 1
              [{ id := some processId, size := newBlockSize },
               { id := none, size := toDouble (block.size - newBlockSize) }])
          else
            -- `blocks.splice(obj)`: the start index is `ToInteger(obj) = 0` and, with no
            -- delete count, every element from there on is removed
            .stored (splice memory 0 memory.length [])
      else .noBlock

/-- State after a call of `allocateMemory`: the list passed to `setMemory`, or the
unchanged `memory` when `setMemory` is not called. -/
def allocateMemory (memory : List Block) (processId : String) (newBlockSize : Option Int)
    (strategy : String) : List Block :=
  match allocateOutcome memory processId newBlockSize strategy with
  | .stored blocks => blocks
  | _ => memory

/-- The merging loop of lines 113-120 on the array `blocks` with loop variable `i`.
Every iteration either removes a block or advances `i`, so `blocks.length - i`
iterations suffice; `fuel` bounds the number of iterations. The `+=` of line 116 is an
addition of doubles: the exact sum rounded by `toDouble`. -/
def mergeLoop : Nat → List Block → Nat → List Block
  | 0, blocks, _ => blocks
  | fuel + 1, blocks, i =>
    if h : i + 1 < blocks.length then
      if blocks[i].id = none ∧ blocks[i + 1].id = none then
        mergeLoop fuel
          (splice
            (blocks.set i
              { blocks[i] with size := toDouble (blocks[i].size + blocks[i + 1].size) })
            (i + 1) 1 [])
          i
      else mergeLoop fuel blocks (i + 1)
    else blocks

/-- The callback of the `map` of lines 110-111: a block owned by `id` is replaced by a
vacant block of the same size, any other block is kept. -/
def release (id : Option String) (block : Block) : Block :=
  if block.id = id then { id := none, size := block.size } else block

/-- Body of `freeMemory` (lines 109-122): the list passed to `setMemory`. -/
def freeMemory (memory : List Block) (id : Option String) : List Block :=
  let blocks := memory.map (release id)
  mergeLoop blocks.length blocks 0

/-- One user action on the simulator: a click on "Asignar" with the current form
values, or a click on "Liberar" (a call `freeMemory(id)`). -/
inductive Op where
  | allocate (processId : String) (newBlockSize : Option Int) (strategy : String)
  | free (id : Option String)
deriving DecidableEq, Repr

/-- State after one user action. -/
def step (memory : List Block) : Op → List Block
  | .allocate processId newBlockSize strategy =>
    allocateMemory memory processId newBlockSize strategy
  | .free id => freeMemory memory id

/-- State after a sequence of user actions, oldest first. -/
def run (memory : List Block) (ops : List Op) : List Block :=
  ops.foldl step memory

/-- Sum of the sizes of all blocks. -/
def totalSize (memory : List Block) : Int :=
  (memory.map fun block => block.size).sum

/-- The block is vacant and large enough: the test of lines 42 and 60 without the
comparison against `bestSize`. -/
def Fits (newBlockSize : Int) (block : Block) : Prop :=
  block.id = none ∧ block.size ≥ newBlockSize

instance (newBlockSize : Int) (block : Block) : Decidable (Fits newBlockSize block) := by
  unfold Fits; infer_instance

/-- No two neighbouring blocks are both vacant. -/
def NoAdjacentFree : List Block → Prop
  | [] => True
  | [_] => True
  | a :: b :: rest => ¬ (a.id = none ∧ b.id = none) ∧ NoAdjacentFree (b :: rest)

/-- Decision procedure for `NoAdjacentFree`, by recursion on the list. -/
def NoAdjacentFree.decide : (memory : List Block) → Decidable (NoAdjacentFree memory)
  | [] => isTrue trivial
  | [_] => isTrue trivial
  | a :: b :: rest =>
    match NoAdjacentFree.decide (b :: rest) with
    | isTrue h =>
      if h' : a.id = none ∧ b.id = none then isFalse (fun hn => hn.1 h')
      else isTrue ⟨h', h⟩
    | isFalse h => isFalse (fun hn => h hn.2)

instance (memory : List Block) : Decidable (NoAdjacentFree memory) :=
  NoAdjacentFree.decide memory

/-- Closed form of the merging loop: `cur` is the block at the loop index, the list
holds the blocks after it. Used only to reason about `mergeLoop`. -/
def coalesce (cur : Block) : List Block → List Block
  | [] => [cur]
  | next :: rest =>
    if cur.id = none ∧ next.id = none then
      coalesce { cur with size := toDouble (cur.size + next.size) } rest
    else cur :: coalesce next rest

/-- Closed form of the merging loop started at index 0. -/
def coalesceAll : List Block → List Block
  | [] => []
  | cur :: rest => coalesce cur rest

/-- The block at index `j` exists and is vacant. -/
def isFreeAt (memory : List Block) (j : Nat) : Bool :=
  match memory[j]? with
  | some block => decide (block.id = none)
  | none => false

/-- First index of the range that a release of block `i` merges: `i - 1` when block
`i - 1` exists and is vacant, `i` otherwise. -/
def mergeStart (memory : List Block) (i : Nat) : Nat :=
  if 0 < i ∧ isFreeAt memory (i - 1) = true then i - 1 else i

/-- Index after the range that a release of block `i` merges: `i + 2` when block `i + 1`
exists and is vacant, `i + 1` otherwise. -/
def mergeEnd (memory : List Block) (i : Nat) : Nat :=
  if isFreeAt memory (i + 1) = true then i + 2 else i + 1

/-- Lines 90-92 are executed: the call passes the guard of line 24, the selection phase
ends with `chosenIndex !== -1`, and the test `block.size >= newBlockSize` of line 82
fails. -/
def fallbackTaken (memory : List Block) (processId : String) (newBlockSize : Option Int)
    (strategy : String) : Bool :=
  match newBlockSize with
  | none => false
  | some newBlockSize =>
    if newBlockSize = 0 ∨ processId = "" then false
    else
      let chosenIndex := chooseIndex memory newBlockSize strategy
      if chosenIndex ≠ -1 then
        match memory[chosenIndex.toNat]? with
        | none => false
        | some block => decide (¬ block.size ≥ newBlockSize)
      else false

/-- The value of `parseInt(processSize)` is a positive integer. -/
def PositiveSize : Option Int → Prop
  | some n => 0 < n
  | none => False

instance : (size : Option Int) → Decidable (PositiveSize size)
  | some n => inferInstanceAs (Decidable (0 < n))
  | none => isFalse (fun h => h)

/-- A user action whose `allocateMemory` call, if it is one, has a non-empty id, a
positive size and the strategy `'best'` or `'first'`; any `freeMemory` call. -/
def PositiveRequest : Op → Prop
  | .allocate processId newBlockSize strategy =>
    processId ≠ "" ∧ PositiveSize newBlockSize ∧ (strategy = "best" ∨ strategy = "first")
  | .free _ => True

instance : (op : Op) → Decidable (PositiveRequest op)
  | .allocate processId newBlockSize strategy =>
    inferInstanceAs (Decidable
      (processId ≠ "" ∧ PositiveSize newBlockSize ∧ (strategy = "best" ∨ strategy = "first")))
  | .free _ => isTrue trivial

/-- The size of the block is not negative, and it is positive when the block has an
owner. -/
def SizeOk (block : Block) : Prop :=
  0 ≤ block.size ∧ (block.id ≠ none → 0 < block.size)

/-- The call, if it is an `allocateMemory` call, does not request a negative size: the
value of `parseInt(processSize)` is `NaN`, zero or positive; any `freeMemory` call. -/
def NoNegativeSize : Op → Prop
  | .allocate _ newBlockSize _ =>
    match newBlockSize with
    | some n => 0 ≤ n
    | none => True
  | .free _ => True

instance : (op : Op) → Decidable (NoNegativeSize op)
  | .allocate _ (some n) _ => inferInstanceAs (Decidable (0 ≤ n))
  | .allocate _ none _ => isTrue trivial
  | .free _ => isTrue trivial

/-- The value that the repeated `+=` of line 116 leaves in the first block of a run of
blocks that are merged into one: the sizes added from left to right, each addition
rounded to a double. -/
def doubleSum : List Block → Int
  | [] => 0
  | first :: rest => rest.foldl (fun acc block => toDouble (acc + block.size)) first.size

/-! ## The merging loop -/

theorem noAdjacentFree_iff_chain (memory : List Block) :
    NoAdjacentFree memory ↔ memory.Chain' fun a b => ¬ (a.id = none ∧ b.id = none) := by
  induction memory with
  | nil => simp [NoAdjacentFree]
  | cons x rest ih =>
    cases rest with
    | nil => simp [NoAdjacentFree]
    | cons y rest => rw [NoAdjacentFree, ih, List.chain'_cons]

theorem mergeLoop_eq_coalesce (fuel : Nat) :
    ∀ (pre : List Block) (cur : Block) (rest : List Block), rest.length ≤ fuel →
      mergeLoop fuel (pre ++ cur :: rest) pre.length = pre ++ coalesce cur rest := by
  induction fuel with
  | zero =>
    intro pre cur rest h
    have : rest = [] := List.length_eq_zero.mp (Nat.le_zero.mp h)
    subst this
    simp [mergeLoop, coalesce]
  | succ fuel ih =>
    intro pre cur rest h
    cases rest with
    | nil => simp [mergeLoop, coalesce]
    | cons next rest =>
      have hlen : pre.length + 1 < (pre ++ cur :: next :: rest).length := by simp
      have h0 : (pre ++ cur :: next :: rest)[pre.length] = cur := by
        rw [List.getElem_append_right (le_refl _)]; simp
      have h1 : (pre ++ cur :: next :: rest)[pre.length + 1] = next := by
        rw [List.getElem_append_right (by omega)]; simp
      rw [mergeLoop, dif_pos hlen, h0, h1]
      by_cases hc : cur.id = none ∧ next.id = none
      · rw [if_pos hc, coalesce, if_pos hc]
        have hs : splice ((pre ++ cur :: next :: rest).set pre.length
            { cur with size := toDouble (cur.size + next.size) }) (pre.length + 1) 1 []
            = pre ++ { cur with size := toDouble (cur.size + next.size) } :: rest := by
          have e : pre.length + 1 + 1 - pre.length = 2 := by omega
          have e' : pre.length ≤ pre.length + 1 + 1 := by omega
          rw [splice, List.set_append_right _ _ (le_refl _)]
          simp [List.take_append_eq_append_take, List.drop_append_eq_append_drop,
            List.take_of_length_le, List.drop_of_length_le, e, e']
        rw [hs]
        exact ih pre _ rest (by simpa using Nat.le_of_succ_le_succ h)
      · rw [if_neg hc, coalesce, if_neg hc]
        have := ih (pre ++ [cur]) next rest (by simpa using Nat.le_of_succ_le_succ h)
        simpa using this

theorem mergeLoop_zero_eq (fuel : Nat) (blocks : List Block) (h : blocks.length ≤ fuel) :
    mergeLoop fuel blocks 0 = coalesceAll blocks := by
  cases blocks with
  | nil => cases fuel <;> simp [mergeLoop, coalesceAll]
  | cons cur rest =>
    have := mergeLoop_eq_coalesce fuel [] cur rest (by simp at h; omega)
    simpa [coalesceAll] using this

theorem freeMemory_eq (memory : List Block) (id : Option String) :
    freeMemory memory id = coalesceAll (memory.map (release id)) := by
  unfold freeMemory
  exact mergeLoop_zero_eq _ _ (le_refl _)

/-- Fuel beyond the length of the array does not change the result of the loop. -/
theorem mergeLoop_fuel_irrelevant (fuel : Nat) (blocks : List Block)
    (h : blocks.length ≤ fuel) :
    mergeLoop fuel blocks 0 = mergeLoop blocks.length blocks 0 := by
  rw [mergeLoop_zero_eq fuel blocks h, mergeLoop_zero_eq _ blocks (le_refl _)]

theorem coalesce_head (cur : Block) (rest : List Block) :
    ∃ c tail, coalesce cur rest = c :: tail ∧ c.id = cur.id := by
  induction rest generalizing cur with
  | nil => exact ⟨cur, [], rfl, rfl⟩
  | cons next rest ih =>
    by_cases hc : cur.id = none ∧ next.id = none
    · obtain ⟨c, tail, h1, h2⟩ := ih { cur with size := toDouble (cur.size + next.size) }
      exact ⟨c, tail, by rw [coalesce, if_pos hc, h1], h2⟩
    · exact ⟨cur, coalesce next rest, by rw [coalesce, if_neg hc], rfl⟩

theorem totalSize_cons (b : Block) (rest : List Block) :
    totalSize (b :: rest) = b.size + totalSize rest := by
  simp [totalSize]

theorem totalSize_append (l₁ l₂ : List Block) :
    totalSize (l₁ ++ l₂) = totalSize l₁ + totalSize l₂ := by
  simp [totalSize]

/-! ### Rounding -/

theorem roundNat_of_lt (m : Nat) (h : m < 2 ^ 53) : roundNat m = m := by
  have hu : doubleUnit 1024 m 1 = 1 := by
    rw [doubleUnit, Nat.div_one, if_pos h]
  simp [roundNat, hu, Nat.mod_one]

/-- Integers of magnitude below `2 ^ 53` are doubles: rounding leaves them as they are. -/
theorem toDouble_of_natAbs_lt (x : Int) (h : x.natAbs < 2 ^ 53) : toDouble x = x := by
  unfold toDouble
  rw [roundNat_of_lt _ h]
  split <;> omega

theorem toDouble_of_nonneg_of_lt (x : Int) (h0 : 0 ≤ x) (h : x < 2 ^ 53) : toDouble x = x :=
  toDouble_of_natAbs_lt x (by omega)

/-- Values of `toDouble` at the first integers that are not doubles: `2 ^ 53 + 1` is a tie
and goes to the even significand `2 ^ 53`, `2 ^ 53 + 3` is a tie and goes up to
`2 ^ 53 + 4`; `1e20 + 1024` is nearer to `1e20` than to the next double. -/
theorem toDouble_values :
    toDouble 9007199254740992 = 9007199254740992 ∧
    toDouble 9007199254740993 = 9007199254740992 ∧
    toDouble 9007199254740995 = 9007199254740996 ∧
    toDouble (-9007199254740993) = -9007199254740992 ∧
    toDouble 100000000000000001024 = 100000000000000000000 := by
  decide

theorem toDouble_nonneg (x : Int) (h : 0 ≤ x) : 0 ≤ toDouble x := by
  unfold toDouble
  rw [if_neg (by omega)]
  exact Int.ofNat_nonneg _

/-! ### Sums of sizes -/

theorem totalSize_nonneg (l : List Block) (h : ∀ c ∈ l, 0 ≤ c.size) : 0 ≤ totalSize l := by
  induction l with
  | nil => simp [totalSize]
  | cons a rest ih =>
    rw [totalSize_cons]
    have := h a (List.mem_cons_self _ _)
    have := ih (fun c hc => h c (List.mem_cons_of_mem _ hc))
    omega

theorem size_le_totalSize (l : List Block) (h : ∀ c ∈ l, 0 ≤ c.size) (b : Block)
    (hb : b ∈ l) : b.size ≤ totalSize l := by
  induction l with
  | nil => simp at hb
  | cons a rest ih =>
    rw [totalSize_cons]
    have ha := h a (List.mem_cons_self _ _)
    have hrest : ∀ c ∈ rest, 0 ≤ c.size := fun c hc => h c (List.mem_cons_of_mem _ hc)
    have := totalSize_nonneg rest hrest
    rcases List.mem_cons.mp hb with rfl | hb
    · omega
    · have := ih hrest hb
      omega

/-- The merging loop keeps the sum of the sizes when the sizes are not negative and add
up to less than `2 ^ 53`: every addition of line 116 is then exact. -/
theorem totalSize_coalesce (cur : Block) (rest : List Block)
    (hnn : ∀ c ∈ cur :: rest, 0 ≤ c.size) (hlt : totalSize (cur :: rest) < 2 ^ 53) :
    totalSize (coalesce cur rest) = cur.size + totalSize rest := by
  induction rest generalizing cur with
  | nil => simp [coalesce, totalSize]
  | cons next rest ih =>
    have hcur : 0 ≤ cur.size := hnn cur (List.mem_cons_self _ _)
    have hnext : 0 ≤ next.size :=
      hnn next (List.mem_cons_of_mem _ (List.mem_cons_self _ _))
    have hrest : ∀ c ∈ rest, 0 ≤ c.size := fun c hc =>
      hnn c (List.mem_cons_of_mem _ (List.mem_cons_of_mem _ hc))
    have hrest0 := totalSize_nonneg rest hrest
    rw [totalSize_cons, totalSize_cons] at hlt
    by_cases hc : cur.id = none ∧ next.id = none
    · have hexact : toDouble (cur.size + next.size) = cur.size + next.size :=
        toDouble_of_nonneg_of_lt _ (by omega) (by omega)
      rw [coalesce, if_pos hc, hexact, ih, totalSize_cons]
      · simp only; ring
      · intro c hmem
        rcases List.mem_cons.mp hmem with rfl | hmem
        · simp only; omega
        · exact hrest c hmem
      · rw [totalSize_cons]; simp only; omega
    · rw [coalesce, if_neg hc, totalSize_cons, ih, totalSize_cons]
      · intro c hmem
        exact hnn c (List.mem_cons_of_mem _ hmem)
      · rw [totalSize_cons]; omega

theorem totalSize_coalesceAll (blocks : List Block) (hnn : ∀ c ∈ blocks, 0 ≤ c.size)
    (hlt : totalSize blocks < 2 ^ 53) :
    totalSize (coalesceAll blocks) = totalSize blocks := by
  cases blocks with
  | nil => rfl
  | cons cur rest => rw [coalesceAll, totalSize_coalesce cur rest hnn hlt, totalSize_cons]

theorem release_size (id : Option String) (block : Block) :
    (release id block).size = block.size := by
  unfold release; split <;> rfl

theorem totalSize_map_release (id : Option String) (memory : List Block) :
    totalSize (memory.map (release id)) = totalSize memory := by
  induction memory with
  | nil => rfl
  | cons b rest ih => rw [List.map_cons, totalSize_cons, totalSize_cons, ih, release_size]

theorem totalSize_freeMemory (memory : List Block) (id : Option String)
    (hnn : ∀ c ∈ memory, 0 ≤ c.size) (hlt : totalSize memory < 2 ^ 53) :
    totalSize (freeMemory memory id) = totalSize memory := by
  rw [freeMemory_eq, totalSize_coalesceAll, totalSize_map_release]
  · intro c hc
    obtain ⟨c', hc', rfl⟩ := List.mem_map.mp hc
    rw [release_size]
    exact hnn c' hc'
  · rw [totalSize_map_release]; exact hlt

theorem noAdjacentFree_coalesce (cur : Block) (rest : List Block) :
    NoAdjacentFree (coalesce cur rest) := by
  induction rest generalizing cur with
  | nil => simp [coalesce, NoAdjacentFree]
  | cons next rest ih =>
    by_cases hc : cur.id = none ∧ next.id = none
    · rw [coalesce, if_pos hc]; exact ih _
    · rw [coalesce, if_neg hc]
      obtain ⟨c, tail, h1, h2⟩ := coalesce_head next rest
      have hn := ih next
      rw [h1] at hn ⊢
      exact ⟨by rw [h2]; exact hc, hn⟩

theorem noAdjacentFree_coalesceAll (blocks : List Block) :
    NoAdjacentFree (coalesceAll blocks) := by
  cases blocks with
  | nil => simp [coalesceAll, NoAdjacentFree]
  | cons cur rest => exact noAdjacentFree_coalesce cur rest

theorem noAdjacentFree_freeMemory (memory : List Block) (id : Option String) :
    NoAdjacentFree (freeMemory memory id) := by
  rw [freeMemory_eq]; exact noAdjacentFree_coalesceAll _

theorem coalesce_of_noAdjacentFree (cur : Block) (rest : List Block)
    (h : NoAdjacentFree (cur :: rest)) : coalesce cur rest = cur :: rest := by
  induction rest generalizing cur with
  | nil => rfl
  | cons next rest ih => rw [coalesce, if_neg h.1, ih next h.2]

theorem coalesceAll_append (pre : List Block) (x : Block) (rest : List Block)
    (h : NoAdjacentFree (pre ++ [x])) :
    coalesceAll (pre ++ x :: rest) = pre ++ coalesce x rest := by
  induction pre with
  | nil => rfl
  | cons a pre ih =>
    cases pre with
    | nil =>
      simp only [List.nil_append, List.cons_append, coalesceAll]
      rw [coalesce, if_neg h.1]
    | cons b pre =>
      have ih' := ih h.2
      simp only [List.cons_append, coalesceAll] at ih' ⊢
      rw [coalesce, if_neg h.1, ih']

/-! ## The selection phase of `allocateMemory` -/

theorem firstFitLoop_spec (n : Int) (l : List Block) (i : Nat) :
    ((∀ b ∈ l, ¬ Fits n b) ∧ firstFitLoop n l i = -1) ∨
    (∃ k b, l[k]? = some b ∧ firstFitLoop n l i = ((i + k : Nat) : Int) ∧ Fits n b ∧
      ∀ j c, j < k → l[j]? = some c → ¬ Fits n c) := by
  induction l generalizing i with
  | nil => left; simp [firstFitLoop]
  | cons a rest ih =>
    by_cases ha : a.id = none ∧ a.size ≥ n
    · right
      refine ⟨0, a, by simp, by simp [firstFitLoop, ha], ha, ?_⟩
      intro j c hj; omega
    · rw [firstFitLoop, if_neg ha]
      rcases ih (i + 1) with ⟨h1, h2⟩ | ⟨k, b, h1, h2, h3, h4⟩
      · left
        refine ⟨?_, h2⟩
        intro b hb
        rcases List.mem_cons.mp hb with rfl | hb
        · exact ha
        · exact h1 b hb
      · right
        refine ⟨k + 1, b, by simpa using h1, ?_, h3, ?_⟩
        · rw [h2]; congr 1; omega
        · intro j c hj hc
          cases j with
          | zero => simp at hc; subst hc; exact ha
          | succ j => exact h4 j c (by omega) (by simpa using hc)

theorem bestFitLoop_range (n : Int) (l : List Block) (i : Nat) (c : Int) (best : Option Int) :
    bestFitLoop n l i c best = c ∨
    ∃ k b, l[k]? = some b ∧ bestFitLoop n l i c best = ((i + k : Nat) : Int) ∧ Fits n b := by
  induction l generalizing i c best with
  | nil => left; rfl
  | cons a rest ih =>
    by_cases ha : a.id = none ∧ a.size ≥ n ∧ ltBestSize n best = true
    · rw [bestFitLoop, if_pos ha]
      right
      rcases ih (i + 1) (i : Int) (some a.size) with h | ⟨k, b, h1, h2, h3⟩
      · exact ⟨0, a, by simp, by rw [h]; rfl, ha.1, ha.2.1⟩
      · exact ⟨k + 1, b, by simpa using h1, by rw [h2]; congr 1; omega, h3⟩
    · rw [bestFitLoop, if_neg ha]
      rcases ih (i + 1) c best with h | ⟨k, b, h1, h2, h3⟩
      · left; exact h
      · right; exact ⟨k + 1, b, by simpa using h1, by rw [h2]; congr 1; omega, h3⟩

theorem bestFitLoop_no_fit (n : Int) (l : List Block) (i : Nat) (c : Int) (best : Option Int)
    (h : ∀ b ∈ l, ¬ Fits n b) : bestFitLoop n l i c best = c := by
  induction l generalizing i with
  | nil => rfl
  | cons a rest ih =>
    have ha : ¬ (a.id = none ∧ a.size ≥ n ∧ ltBestSize n best = true) := by
      intro h'
      exact h a (List.mem_cons_self _ _) ⟨h'.1, h'.2.1⟩
    rw [bestFitLoop, if_neg ha]
    exact ih (i + 1) (fun b hb => h b (List.mem_cons_of_mem _ hb))

theorem bestFitLoop_fit (n : Int) (l : List Block) (i : Nat) (c : Int)
    (h : ∃ b ∈ l, Fits n b) :
    ∃ k b, l[k]? = some b ∧ bestFitLoop n l i c none = ((i + k : Nat) : Int) ∧ Fits n b := by
  induction l generalizing i with
  | nil => simp at h
  | cons a rest ih =>
    by_cases ha : a.id = none ∧ a.size ≥ n
    · have ha' : a.id = none ∧ a.size ≥ n ∧ ltBestSize n none = true := ⟨ha.1, ha.2, rfl⟩
      rw [bestFitLoop, if_pos ha']
      rcases bestFitLoop_range n rest (i + 1) (i : Int) (some a.size) with h' | ⟨k, b, h1, h2, h3⟩
      · exact ⟨0, a, by simp, by rw [h']; rfl, ha⟩
      · exact ⟨k + 1, b, by simpa using h1, by rw [h2]; congr 1; omega, h3⟩
    · have ha' : ¬ (a.id = none ∧ a.size ≥ n ∧ ltBestSize n none = true) :=
        fun h' => ha ⟨h'.1, h'.2.1⟩
      rw [bestFitLoop, if_neg ha']
      obtain ⟨b, hb, hfit⟩ := h
      rcases List.mem_cons.mp hb with rfl | hb
      · exact absurd hfit ha
      · obtain ⟨k, b', h1, h2, h3⟩ := ih (i + 1) ⟨b, hb, hfit⟩
        exact ⟨k + 1, b', by simpa using h1, by rw [h2]; congr 1; omega, h3⟩

/-- Outcome of the selection phase for the two strategies of the form: `-1` exactly
when no vacant block is large enough, and otherwise the index of such a block. -/
theorem chooseIndex_spec (memory : List Block) (n : Int) (strategy : String)
    (hs : strategy = "best" ∨ strategy = "first") :
    ((∀ b ∈ memory, ¬ Fits n b) ∧ chooseIndex memory n strategy = -1) ∨
    (∃ (k : Nat) (b : Block),
      memory[k]? = some b ∧ chooseIndex memory n strategy = (k : Int) ∧ Fits n b) := by
  rcases hs with rfl | rfl
  · by_cases h : ∃ b ∈ memory, Fits n b
    · right
      obtain ⟨k, b, h1, h2, h3⟩ := bestFitLoop_fit n memory 0 (-1) h
      exact ⟨k, b, h1, by simpa [chooseIndex] using h2, h3⟩
    · left
      have h' : ∀ b ∈ memory, ¬ Fits n b := fun b hb hf => h ⟨b, hb, hf⟩
      exact ⟨h', by simpa [chooseIndex] using bestFitLoop_no_fit n memory 0 (-1) none h'⟩
  · rcases firstFitLoop_spec n memory 0 with ⟨h1, h2⟩ | ⟨k, b, h1, h2, h3, _⟩
    · left; exact ⟨h1, by simpa [chooseIndex] using h2⟩
    · right; exact ⟨k, b, h1, by simpa [chooseIndex] using h2, h3⟩

/-- The call stores the split partition when the selection phase ends at a valid
index whose block is at least as large as the request. -/
theorem allocateOutcome_of_chosen (memory : List Block) (pid : String) (n : Int)
    (strategy : String) (k : Nat) (b : Block) (hn : n ≠ 0) (hp : pid ≠ "")
    (hk : chooseIndex memory n strategy = (k : Int)) (hb : memory[k]? = some b)
    (hsz : b.size ≥ n) :
    allocateOutcome memory pid (some n) strategy =
      .stored (memory.take k ++ [⟨some pid, n⟩, ⟨none, toDouble (b.size - n)⟩]
        ++ memory.drop (k + 1)) := by
  have hne : (k : Int) ≠ -1 := by omega
  simp only [allocateOutcome, hk, Int.toNat_ofNat, hb]
  rw [if_neg (by simp [hn, hp]), if_pos hne, if_pos hsz]
  simp [splice]

theorem allocateOutcome_of_none (memory : List Block) (pid : String) (n : Int)
    (strategy : String) (hn : n ≠ 0) (hp : pid ≠ "")
    (hk : chooseIndex memory n strategy = -1) :
    allocateOutcome memory pid (some n) strategy = .noBlock := by
  simp only [allocateOutcome, hk]
  rw [if_neg (by simp [hn, hp])]
  simp

theorem chooseIndex_range (memory : List Block) (n : Int) (strategy : String) :
    chooseIndex memory n strategy = -1 ∨
    (∃ (k : Nat) (b : Block),
      memory[k]? = some b ∧ chooseIndex memory n strategy = (k : Int) ∧ Fits n b) := by
  by_cases hs : strategy = "best" ∨ strategy = "first"
  · rcases chooseIndex_spec memory n strategy hs with h | h
    · left; exact h.2
    · right; exact h
  · left
    have h1 : strategy ≠ "best" := fun h => hs (Or.inl h)
    have h2 : strategy ≠ "first" := fun h => hs (Or.inr h)
    simp [chooseIndex, h1, h2]

theorem eq_take_cons_drop {l : List Block} {k : Nat} {b : Block} (h : l[k]? = some b) :
    l = l.take k ++ b :: l.drop (k + 1) := by
  obtain ⟨hk, rfl⟩ := List.getElem?_eq_some.mp h
  simp

/-- Every call of `allocateMemory` either leaves the state as it is or replaces one
vacant, large enough block by an owned block followed by the vacant remainder. -/
theorem allocateMemory_cases (memory : List Block) (pid : String) (size : Option Int)
    (strategy : String) :
    allocateMemory memory pid size strategy = memory ∨
    ∃ (k : Nat) (b : Block) (n : Int), size = some n ∧ n ≠ 0 ∧ pid ≠ "" ∧
      memory[k]? = some b ∧ chooseIndex memory n strategy = (k : Int) ∧ Fits n b ∧
      allocateMemory memory pid size strategy =
        memory.take k ++ [⟨some pid, n⟩, ⟨none, toDouble (b.size - n)⟩]
          ++ memory.drop (k + 1) := by
  cases size with
  | none => left; rfl
  | some n =>
    by_cases hv : n = 0 ∨ pid = ""
    · left; simp [allocateMemory, allocateOutcome, hv]
    · have hn : n ≠ 0 := fun h => hv (Or.inl h)
      have hp : pid ≠ "" := fun h => hv (Or.inr h)
      rcases chooseIndex_range memory n strategy with h | ⟨k, b, h1, h2, h3⟩
      · left
        simp [allocateMemory, allocateOutcome_of_none memory pid n strategy hn hp h]
      · right
        refine ⟨k, b, n, rfl, hn, hp, h1, h2, h3, ?_⟩
        simp [allocateMemory, allocateOutcome_of_chosen memory pid n strategy k b hn hp h2 h1 h3.2]

/-- An allocation keeps the sum of the sizes when the request is not negative and the
sizes are not negative and add up to less than `2 ^ 53`: the subtraction of line 87 is
then exact. -/
theorem totalSize_allocateMemory (memory : List Block) (pid : String) (size : Option Int)
    (strategy : String) (hsize : ∀ n, size = some n → 0 ≤ n)
    (hnn : ∀ c ∈ memory, 0 ≤ c.size) (hlt : totalSize memory < 2 ^ 53) :
    totalSize (allocateMemory memory pid size strategy) = totalSize memory := by
  rcases allocateMemory_cases memory pid size strategy with
    h | ⟨k, b, n, hs, -, -, h1, -, hfit, h2⟩
  · rw [h]
  · have hn0 : 0 ≤ n := hsize n hs
    have hble : b.size ≤ totalSize memory :=
      size_le_totalSize memory hnn b (List.getElem?_mem h1)
    have hge : b.size ≥ n := hfit.2
    have hexact : toDouble (b.size - n) = b.size - n :=
      toDouble_of_nonneg_of_lt _ (by omega) (by omega)
    rw [h2, hexact]
    conv_rhs => rw [eq_take_cons_drop h1]
    simp only [totalSize_append, totalSize_cons]
    simp [totalSize]
    ring

theorem noAdjacentFree_split (pre post : List Block) (b : Block) (pid : String) (n m : Int)
    (hb : b.id = none) (h : NoAdjacentFree (pre ++ b :: post)) :
    NoAdjacentFree (pre ++ [⟨some pid, n⟩, ⟨none, m⟩] ++ post) := by
  rw [noAdjacentFree_iff_chain] at h ⊢
  rw [List.chain'_split] at h
  obtain ⟨h1, h2⟩ := h
  rw [List.append_assoc, List.cons_append, List.cons_append, List.nil_append, List.chain'_split]
  constructor
  · rw [List.chain'_append] at h1 ⊢
    exact ⟨h1.1, List.chain'_singleton _, fun x _ y hy => by
      simp at hy; subst hy; simp⟩
  · refine List.Chain'.cons (by simp) ?_
    rw [List.chain'_cons'] at h2 ⊢
    refine ⟨fun y hy => ?_, h2.2⟩
    have := h2.1 y hy
    simpa [hb] using this

theorem noAdjacentFree_allocateMemory (memory : List Block) (pid : String)
    (size : Option Int) (strategy : String) (h : NoAdjacentFree memory) :
    NoAdjacentFree (allocateMemory memory pid size strategy) := by
  rcases allocateMemory_cases memory pid size strategy with h' | ⟨k, b, n, -, -, -, h1, -, h3, h2⟩
  · rw [h']; exact h
  · rw [h2]
    rw [eq_take_cons_drop h1] at h
    exact noAdjacentFree_split _ _ b pid n _ h3.1 h

theorem noAdjacentFree_step (memory : List Block) (op : Op) (h : NoAdjacentFree memory) :
    NoAdjacentFree (step memory op) := by
  cases op with
  | allocate pid size strategy => exact noAdjacentFree_allocateMemory memory pid size strategy h
  | free id => exact noAdjacentFree_freeMemory memory id

theorem noAdjacentFree_run (memory : List Block) (ops : List Op) (h : NoAdjacentFree memory) :
    NoAdjacentFree (run memory ops) := by
  induction ops generalizing memory with
  | nil => exact h
  | cons op ops ih => exact ih (step memory op) (noAdjacentFree_step memory op h)

/-- Reading of `NoAdjacentFree` by index: the blocks at `i` and `i + 1` are never
both vacant. -/
theorem noAdjacentFree_iff (memory : List Block) :
    NoAdjacentFree memory ↔
      ∀ (i : Nat) (a b : Block), memory[i]? = some a → memory[i + 1]? = some b →
        ¬ (a.id = none ∧ b.id = none) := by
  induction memory with
  | nil => simp [NoAdjacentFree]
  | cons x rest ih =>
    cases rest with
    | nil =>
      simp [NoAdjacentFree]
    | cons y rest =>
      rw [NoAdjacentFree, ih]
      constructor
      · rintro ⟨h1, h2⟩ i a b ha hb
        cases i with
        | zero =>
          simp at ha hb
          subst ha; subst hb
          exact h1
        | succ i => exact h2 i a b (by simpa using ha) (by simpa using hb)
      · intro h
        refine ⟨h 0 x y (by simp) (by simp), fun i a b ha hb => ?_⟩
        exact h (i + 1) a b (by simpa using ha) (by simpa using hb)

/-! ## Claims -/

/-- C2. In every partition reachable from the initial partition by a finite sequence of
`allocateMemory` and `freeMemory` calls (with any arguments, in particular non-empty
ids and the strategies `'best'` and `'first'`), the blocks at two consecutive indices
are never both vacant (`id === null`). -/
theorem C2_no_adjacent_free_reachable (ops : List Op) (i : Nat) (a b : Block)
    (ha : (run initialMemory ops)[i]? = some a)
    (hb : (run initialMemory ops)[i + 1]? = some b) :
    ¬ (a.id = none ∧ b.id = none) :=
  (noAdjacentFree_iff _).mp
    (noAdjacentFree_run initialMemory ops (by decide)) i a b ha hb

/-- Witness for C2 on the first three steps of the scenario of the specification:
the state is `[{ free, 300 }, { P2, 724 }, { free, 0 }]`. -/
theorem C2_no_adjacent_free_reachable_witness :
    run initialMemory
        [.allocate "P1" (some 300) "best", .allocate "P2" (some 724) "first", .free (some "P1")]
      = [⟨none, 300⟩, ⟨some "P2", 724⟩, ⟨none, 0⟩] ∧
    ¬ ((⟨none, 300⟩ : Block).id = none ∧ (⟨some "P2", 724⟩ : Block).id = none) :=
  ⟨by decide,
   C2_no_adjacent_free_reachable
    [.allocate "P1" (some 300) "best", .allocate "P2" (some 724) "first", .free (some "P1")]
    0 ⟨none, 300⟩ ⟨some "P2", 724⟩ (by decide) (by decide)⟩

/-- C3 (the code departs from the claim). The partition
`[{ free, 100 }, { B, 10 }, { free, 200 }, { D, 10 }, { free, 704 }]` is reachable, and a
best-fit request of 50 chooses index 4, the block of size 704, although the vacant
blocks at indices 0 and 2 (sizes 100 and 200) are large enough and smaller. -/
theorem C3_best_fit_not_minimal :
    run initialMemory
        [.allocate "A" (some 100) "first", .allocate "B" (some 10) "first",
         .allocate "C" (some 200) "first", .allocate "D" (some 10) "first",
         .free (some "A"), .free (some "C")]
      = [⟨none, 100⟩, ⟨some "B", 10⟩, ⟨none, 200⟩, ⟨some "D", 10⟩, ⟨none, 704⟩] ∧
    chooseIndex [⟨none, 100⟩, ⟨some "B", 10⟩, ⟨none, 200⟩, ⟨some "D", 10⟩, ⟨none, 704⟩]
      50 "best" = 4 ∧
    Fits 50 ⟨none, 100⟩ ∧
    allocateMemory [⟨none, 100⟩, ⟨some "B", 10⟩, ⟨none, 200⟩, ⟨some "D", 10⟩, ⟨none, 704⟩]
      "E" (some 50) "best"
      = [⟨none, 100⟩, ⟨some "B", 10⟩, ⟨none, 200⟩, ⟨some "D", 10⟩, ⟨some "E", 50⟩,
         ⟨none, 654⟩] := by
  decide

/-- C4. Whenever some vacant block has `size >= requested`, the first-fit selection
ends at the smallest index `i` whose block is vacant and large enough, and the blocks
before index `i` are the same in the resulting partition. It holds for every requested
size, the positive ones included, and every process id. -/
theorem C4_first_fit_lowest_index (memory : List Block) (pid : String) (n : Int)
    (hfit : ∃ b ∈ memory, Fits n b) :
    ∃ (i : Nat) (b : Block), memory[i]? = some b ∧
      chooseIndex memory n "first" = (i : Int) ∧ Fits n b ∧
      (∀ j c, j < i → memory[j]? = some c → ¬ Fits n c) ∧
      (allocateMemory memory pid (some n) "first").take i = memory.take i := by
  rcases firstFitLoop_spec n memory 0 with ⟨h1, _⟩ | ⟨k, b, h1, h2, h3, h4⟩
  · obtain ⟨b, hb, hf⟩ := hfit
    exact absurd hf (h1 b hb)
  · have hk : chooseIndex memory n "first" = (k : Int) := by simpa [chooseIndex] using h2
    refine ⟨k, b, h1, hk, h3, h4, ?_⟩
    rcases allocateMemory_cases memory pid (some n) "first" with h | ⟨k', b', n', e, -, -, -, hk', -, h⟩
    · rw [h]
    · cases e
      have : k' = k := by rw [hk] at hk'; exact_mod_cast hk'.symm
      subst this
      rw [h, List.append_assoc, List.take_append_eq_append_take]
      have hlen : k' ≤ memory.length := by
        have := (List.getElem?_eq_some.mp h1).1; omega
      simp [List.length_take, Nat.min_eq_left hlen]

/-- Witness for C4: in `[{ free, 100 }, { B, 10 }, { free, 200 }]` a first-fit request of
150 has a fitting block. -/
theorem C4_first_fit_lowest_index_witness :
    ∃ (i : Nat) (b : Block),
      ([⟨none, 100⟩, ⟨some "B", 10⟩, ⟨none, 200⟩] : List Block)[i]? = some b ∧
      chooseIndex [⟨none, 100⟩, ⟨some "B", 10⟩, ⟨none, 200⟩] 150 "first" = (i : Int) ∧
      Fits 150 b ∧
      (∀ j c, j < i → ([⟨none, 100⟩, ⟨some "B", 10⟩, ⟨none, 200⟩] : List Block)[j]? = some c →
        ¬ Fits 150 c) ∧
      (allocateMemory [⟨none, 100⟩, ⟨some "B", 10⟩, ⟨none, 200⟩] "E" (some 150) "first").take i
        = ([⟨none, 100⟩, ⟨some "B", 10⟩, ⟨none, 200⟩] : List Block).take i :=
  C4_first_fit_lowest_index [⟨none, 100⟩, ⟨some "B", 10⟩, ⟨none, 200⟩] "E" 150
    ⟨⟨none, 200⟩, by decide, by decide⟩

/-- Result of a successful call in terms of the chosen index: block `i` is replaced by
the owned block and the vacant remainder. -/
theorem allocateMemory_of_chosen (memory : List Block) (pid : String) (n : Int)
    (strategy : String) (i : Nat) (b : Block) (hn : n ≠ 0) (hp : pid ≠ "")
    (hi : chooseIndex memory n strategy = (i : Int)) (hb : memory[i]? = some b)
    (hsz : b.size ≥ n) :
    allocateMemory memory pid (some n) strategy =
      memory.take i ++ [⟨some pid, n⟩, ⟨none, toDouble (b.size - n)⟩]
        ++ memory.drop (i + 1) := by
  simp [allocateMemory, allocateOutcome_of_chosen memory pid n strategy i b hn hp hi hb hsz]

theorem length_split (memory : List Block) (i : Nat) (b x y : Block)
    (hb : memory[i]? = some b) :
    (memory.take i ++ [x, y] ++ memory.drop (i + 1)).length = memory.length + 1 := by
  have hlt := (List.getElem?_eq_some.mp hb).1
  simp only [List.length_append, List.length_take, List.length_drop, List.length_cons,
    List.length_nil]
  omega

/-- C5 (the claim as stated fails). From `[{ P1, 300 }, { free, 724 }]`, allocating P2 with
size 724 under first-fit chooses index 1, a block of exactly the requested size, and
yields `[{ P1, 300 }, { P2, 724 }, { free, 0 }]`: the result is one block longer than the
input and contains a new vacant block of size 0, so it is not `[{ P1, 300 }, { P2, 724 }]`. -/
theorem C5_exact_fit_counterexample :
    chooseIndex [⟨some "P1", 300⟩, ⟨none, 724⟩] 724 "first" = 1 ∧
    allocateMemory [⟨some "P1", 300⟩, ⟨none, 724⟩] "P2" (some 724) "first"
      = [⟨some "P1", 300⟩, ⟨some "P2", 724⟩, ⟨none, 0⟩] ∧
    allocateMemory [⟨some "P1", 300⟩, ⟨none, 724⟩] "P2" (some 724) "first"
      ≠ [⟨some "P1", 300⟩, ⟨some "P2", 724⟩] ∧
    (allocateMemory [⟨some "P1", 300⟩, ⟨none, 724⟩] "P2" (some 724) "first").length
      ≠ ([⟨some "P1", 300⟩, ⟨none, 724⟩] : List Block).length := by
  decide

/-- C5 (amended). For every partition, non-empty `processId`, positive size and strategy
(a block is chosen only under `'best'` or `'first'`), if the block chosen at index `i` has
size exactly equal to the requested size, the resulting partition is the input with block
`i` replaced by the two blocks `{ id: processId, size: requested }` and
`{ id: null, size: 0 }`, in this order: the result is one block longer than the input. -/
theorem C5_exact_fit_keeps_empty_remainder (memory : List Block) (pid : String) (n : Int)
    (strategy : String) (i : Nat) (b : Block) (hp : pid ≠ "") (hn : 0 < n)
    (hi : chooseIndex memory n strategy = (i : Int)) (hb : memory[i]? = some b)
    (hsz : b.size = n) :
    allocateMemory memory pid (some n) strategy =
      memory.take i ++ [⟨some pid, n⟩, ⟨none, 0⟩] ++ memory.drop (i + 1) ∧
    (allocateMemory memory pid (some n) strategy).length = memory.length + 1 := by
  have h := allocateMemory_of_chosen memory pid n strategy i b (by omega) hp hi hb (by omega)
  have h0 : toDouble (b.size - n) = 0 := by
    have e : b.size - n = 0 := by omega
    rw [e]; rfl
  rw [h0] at h
  exact ⟨h, by rw [h]; exact length_split memory i b _ _ hb⟩

/-- Witness for the amended C5, on the example of the claim. -/
theorem C5_exact_fit_keeps_empty_remainder_witness :
    allocateMemory [⟨some "P1", 300⟩, ⟨none, 724⟩] "P2" (some 724) "first" =
      ([⟨some "P1", 300⟩, ⟨none, 724⟩] : List Block).take 1
        ++ [⟨some "P2", 724⟩, ⟨none, 0⟩]
        ++ ([⟨some "P1", 300⟩, ⟨none, 724⟩] : List Block).drop (1 + 1) ∧
    (allocateMemory [⟨some "P1", 300⟩, ⟨none, 724⟩] "P2" (some 724) "first").length =
      ([⟨some "P1", 300⟩, ⟨none, 724⟩] : List Block).length + 1 :=
  C5_exact_fit_keeps_empty_remainder [⟨some "P1", 300⟩, ⟨none, 724⟩] "P2" 724 "first" 1
    ⟨none, 724⟩ (by decide) (by decide) (by decide) (by decide) (by decide)

/-- C6 (the claim as stated fails). `[{ X, -2^53 }, { free, 2^53 + 1024 }]` is reached from
the initial partition by one call with size `-9007199254740992`. Allocating S with size 1
under first-fit chooses index 1, whose size `s = 9007199254742016` is larger than `n = 1`,
and the subtraction of line 87 stores the remainder `9007199254742016`, the double nearest
to `s - n`, not `s - n = 9007199254742015`. -/
theorem C6_remainder_rounded_counterexample :
    run initialMemory [.allocate "X" (some (-9007199254740992)) "first"]
      = [⟨some "X", -9007199254740992⟩, ⟨none, 9007199254742016⟩] ∧
    chooseIndex [⟨some "X", -9007199254740992⟩, ⟨none, 9007199254742016⟩] 1 "first" = 1 ∧
    allocateMemory [⟨some "X", -9007199254740992⟩, ⟨none, 9007199254742016⟩] "S" (some 1)
        "first"
      = [⟨some "X", -9007199254740992⟩, ⟨some "S", 1⟩, ⟨none, 9007199254742016⟩] ∧
    allocateMemory [⟨some "X", -9007199254740992⟩, ⟨none, 9007199254742016⟩] "S" (some 1)
        "first"
      ≠ [⟨some "X", -9007199254740992⟩, ⟨some "S", 1⟩, ⟨none, 9007199254742016 - 1⟩] := by
  decide

/-- C6 (amended). For every partition, non-empty `processId`, positive size `n` and strategy
(a block is chosen only under `'best'` or `'first'`), if the block chosen at index `i`
has size `s > n` and `s` is below `2 ^ 53`, so that the subtraction of line 87 is exact,
the resulting partition is
(blocks before `i`) ++ `[{ id: processId, size: n }, { id: null, size: s - n }]`
++ (blocks after `i`). -/
theorem C6_split_larger_block (memory : List Block) (pid : String) (n : Int)
    (strategy : String) (i : Nat) (b : Block) (hp : pid ≠ "") (hn : 0 < n)
    (hi : chooseIndex memory n strategy = (i : Int)) (hb : memory[i]? = some b)
    (hsz : b.size > n) (hsafe : b.size < 2 ^ 53) :
    allocateMemory memory pid (some n) strategy =
      memory.take i ++ [⟨some pid, n⟩, ⟨none, b.size - n⟩] ++ memory.drop (i + 1) := by
  have h := allocateMemory_of_chosen memory pid n strategy i b (by omega) hp hi hb (by omega)
  rw [toDouble_of_nonneg_of_lt (b.size - n) (by omega) (by omega)] at h
  exact h

/-- Witness for the amended C6, on the example of the claim: from `[{ free, 1024 }]`,
allocating P1 with size 300 under best-fit yields `[{ P1, 300 }, { free, 724 }]`. -/
theorem C6_split_larger_block_witness :
    allocateMemory initialMemory "P1" (some 300) "best" =
      initialMemory.take 0 ++ [⟨some "P1", 300⟩, ⟨none, (⟨none, 1024⟩ : Block).size - 300⟩]
        ++ initialMemory.drop (0 + 1) ∧
    initialMemory.take 0 ++ [⟨some "P1", 300⟩, ⟨none, (⟨none, 1024⟩ : Block).size - 300⟩]
        ++ initialMemory.drop (0 + 1) = [⟨some "P1", 300⟩, ⟨none, 724⟩] :=
  ⟨C6_split_larger_block initialMemory "P1" 300 "best" 0 ⟨none, 1024⟩
    (by decide) (by decide) (by decide) (by decide) (by decide) (by decide), by decide⟩

/-- C7. For every partition, non-empty `processId`, positive size and strategy `'best'` or
`'first'`, the call ends in the `alert` branch (`setMemory` is not called) if and only if
no vacant block has `size >= requested`, and the partition is left unchanged if and only
if no vacant block has `size >= requested`. -/
theorem C7_unchanged_iff_no_fit (memory : List Block) (pid : String) (n : Int)
    (strategy : String) (hs : strategy = "best" ∨ strategy = "first") (hp : pid ≠ "")
    (hn : 0 < n) :
    (allocateOutcome memory pid (some n) strategy = .noBlock ↔ ¬ ∃ b ∈ memory, Fits n b) ∧
    (allocateMemory memory pid (some n) strategy = memory ↔ ¬ ∃ b ∈ memory, Fits n b) := by
  have hn' : n ≠ 0 := by omega
  rcases chooseIndex_spec memory n strategy hs with ⟨h1, h2⟩ | ⟨k, b, h1, h2, h3⟩
  · have hno : ¬ ∃ b ∈ memory, Fits n b := fun ⟨b, hb, hf⟩ => h1 b hb hf
    have ho := allocateOutcome_of_none memory pid n strategy hn' hp h2
    exact ⟨⟨fun _ => hno, fun _ => ho⟩, ⟨fun _ => hno, fun _ => by simp [allocateMemory, ho]⟩⟩
  · have hex : ∃ b ∈ memory, Fits n b := ⟨b, List.getElem?_mem h1, h3⟩
    have ho := allocateOutcome_of_chosen memory pid n strategy k b hn' hp h2 h1 h3.2
    have ha := allocateMemory_of_chosen memory pid n strategy k b hn' hp h2 h1 h3.2
    refine ⟨⟨fun h => ?_, fun h => absurd hex h⟩, ⟨fun h => ?_, fun h => absurd hex h⟩⟩
    · rw [ho] at h; cases h
    · have hl := congrArg List.length h
      rw [ha, length_split memory k b _ _ h1] at hl
      omega

/-- Witness for C7, on the example of the claim: from `[{ free, 300 }, { P2, 724 }]`,
allocating P3 with size 1000 under best-fit raises the notice and changes nothing. -/
theorem C7_unchanged_iff_no_fit_witness :
    allocateOutcome [⟨none, 300⟩, ⟨some "P2", 724⟩] "P3" (some 1000) "best" = .noBlock ∧
    allocateMemory [⟨none, 300⟩, ⟨some "P2", 724⟩] "P3" (some 1000) "best"
      = [⟨none, 300⟩, ⟨some "P2", 724⟩] :=
  ⟨(C7_unchanged_iff_no_fit [⟨none, 300⟩, ⟨some "P2", 724⟩] "P3" 1000 "best" (Or.inl rfl)
      (by decide) (by decide)).1.mpr (by decide),
   (C7_unchanged_iff_no_fit [⟨none, 300⟩, ⟨some "P2", 724⟩] "P3" 1000 "best" (Or.inl rfl)
      (by decide) (by decide)).2.mpr (by decide)⟩

/-- The part of the input validation that the guard of line 24 implements: a size that
is `NaN` or `0`, or an empty process id, ends the call without a state change. -/
theorem allocateMemory_invalid (memory : List Block) (pid : String) (size : Option Int)
    (strategy : String) (h : size = none ∨ size = some 0 ∨ pid = "") :
    allocateOutcome memory pid size strategy = .invalid ∧
    allocateMemory memory pid size strategy = memory := by
  rcases h with rfl | rfl | rfl
  · simp [allocateMemory, allocateOutcome]
  · simp [allocateMemory, allocateOutcome]
  · cases size <;> simp [allocateMemory, allocateOutcome]

/-- C8 (the code departs from the claim). A negative size passes the guard
`!newBlockSize || !newBlockId`: from `[{ free, 1024 }]`, allocating X with size -5 under
best-fit is not a no-op, it stores `[{ X, -5 }, { free, 1029 }]`. The example of the claim
(size 0) is a no-op. -/
theorem C8_negative_size_is_allocated :
    allocateOutcome initialMemory "X" (some (-5)) "best"
      = .stored [⟨some "X", -5⟩, ⟨none, 1029⟩] ∧
    allocateMemory initialMemory "X" (some (-5)) "best" = [⟨some "X", -5⟩, ⟨none, 1029⟩] ∧
    allocateMemory initialMemory "X" (some (-5)) "best" ≠ initialMemory ∧
    allocateMemory initialMemory "X" (some 0) "best" = initialMemory := by
  decide

/-- C9 (the claim as stated fails). `[{ P1, 300 }, { free, 724 }]` is reachable and holds
a block with id P1; allocating P1 again with size 100 under first-fit is not a no-op:
it yields `[{ P1, 300 }, { P1, 100 }, { free, 624 }]`, a reachable partition in which two
blocks carry the id P1. -/
theorem C9_duplicate_id_counterexample :
    run initialMemory [.allocate "P1" (some 300) "first"]
      = [⟨some "P1", 300⟩, ⟨none, 724⟩] ∧
    (∃ b ∈ ([⟨some "P1", 300⟩, ⟨none, 724⟩] : List Block), b.id = some "P1") ∧
    allocateMemory [⟨some "P1", 300⟩, ⟨none, 724⟩] "P1" (some 100) "first"
      ≠ [⟨some "P1", 300⟩, ⟨none, 724⟩] ∧
    run initialMemory [.allocate "P1" (some 300) "first", .allocate "P1" (some 100) "first"]
      = [⟨some "P1", 300⟩, ⟨some "P1", 100⟩, ⟨none, 624⟩] ∧
    (run initialMemory
      [.allocate "P1" (some 300) "first", .allocate "P1" (some 100) "first"]).countP
        (fun b => decide (b.id = some "P1")) = 2 := by
  decide

/-- C9 (amended). `allocateMemory` has no test for an id that is already in use: for every
partition in which some block already has id equal to the non-empty `processId`, every
positive size and strategy `'best'` or `'first'`, the call is a no-op if and only if no
vacant block has `size >= requested`; when a vacant block is large enough the resulting
partition has one more block with that id than the input, hence at least two. -/
theorem C9_duplicate_id_is_allocated (memory : List Block) (pid : String) (n : Int)
    (strategy : String) (hs : strategy = "best" ∨ strategy = "first") (hp : pid ≠ "")
    (hn : 0 < n) (hdup : ∃ b ∈ memory, b.id = some pid) :
    (allocateMemory memory pid (some n) strategy = memory ↔ ¬ ∃ b ∈ memory, Fits n b) ∧
    ((∃ b ∈ memory, Fits n b) →
      (allocateMemory memory pid (some n) strategy).countP (fun b => decide (b.id = some pid))
        = memory.countP (fun b => decide (b.id = some pid)) + 1 ∧
      2 ≤ (allocateMemory memory pid (some n) strategy).countP
        (fun b => decide (b.id = some pid))) := by
  have hn' : n ≠ 0 := by omega
  rcases chooseIndex_spec memory n strategy hs with ⟨h1, h2⟩ | ⟨k, b, h1, h2, h3⟩
  · have hno : ¬ ∃ b ∈ memory, Fits n b := fun ⟨b, hb, hf⟩ => h1 b hb hf
    have ho := allocateOutcome_of_none memory pid n strategy hn' hp h2
    exact ⟨⟨fun _ => hno, fun _ => by simp [allocateMemory, ho]⟩, fun h => absurd h hno⟩
  · have hex : ∃ b ∈ memory, Fits n b := ⟨b, List.getElem?_mem h1, h3⟩
    have ha := allocateMemory_of_chosen memory pid n strategy k b hn' hp h2 h1 h3.2
    refine ⟨⟨fun h => ?_, fun h => absurd hex h⟩, fun _ => ?_⟩
    · have hl := congrArg List.length h
      rw [ha, length_split memory k b _ _ h1] at hl
      omega
    · have hcount : (allocateMemory memory pid (some n) strategy).countP
          (fun b => decide (b.id = some pid))
          = memory.countP (fun b => decide (b.id = some pid)) + 1 := by
        rw [ha]
        conv_rhs => rw [eq_take_cons_drop h1]
        have hb : b.id ≠ some pid := by rw [h3.1]; simp
        simp [List.countP_append, List.countP_cons, hb]
        omega
      have hpos : 0 < memory.countP (fun b => decide (b.id = some pid)) := by
        rw [List.countP_pos_iff]
        obtain ⟨c, hc, hid⟩ := hdup
        exact ⟨c, hc, by simpa using hid⟩
      exact ⟨hcount, by omega⟩

/-- Witness for the amended C9: the second allocation of P1 in
`[{ P1, 300 }, { free, 724 }]`. -/
theorem C9_duplicate_id_is_allocated_witness :
    (allocateMemory [⟨some "P1", 300⟩, ⟨none, 724⟩] "P1" (some 100) "first"
        = [⟨some "P1", 300⟩, ⟨none, 724⟩] ↔
      ¬ ∃ b ∈ ([⟨some "P1", 300⟩, ⟨none, 724⟩] : List Block), Fits 100 b) ∧
    ((∃ b ∈ ([⟨some "P1", 300⟩, ⟨none, 724⟩] : List Block), Fits 100 b) →
      (allocateMemory [⟨some "P1", 300⟩, ⟨none, 724⟩] "P1" (some 100) "first").countP
          (fun b => decide (b.id = some "P1"))
        = ([⟨some "P1", 300⟩, ⟨none, 724⟩] : List Block).countP
          (fun b => decide (b.id = some "P1")) + 1 ∧
      2 ≤ (allocateMemory [⟨some "P1", 300⟩, ⟨none, 724⟩] "P1" (some 100) "first").countP
          (fun b => decide (b.id = some "P1"))) :=
  C9_duplicate_id_is_allocated [⟨some "P1", 300⟩, ⟨none, 724⟩] "P1" 100 "first" (Or.inr rfl)
    (by decide) (by decide) ⟨⟨some "P1", 300⟩, by decide, by decide⟩

/-! ## Release of a single block -/

theorem map_release_of_not_owner (id : String) (l : List Block)
    (h : ∀ c ∈ l, c.id ≠ some id) : l.map (release (some id)) = l := by
  induction l with
  | nil => rfl
  | cons a rest ih =>
    have ha : a.id ≠ some id := h a (List.mem_cons_self _ _)
    rw [List.map_cons, ih (fun c hc => h c (List.mem_cons_of_mem _ hc))]
    simp [release, ha]

theorem noAdjacentFree_append_cons {pre post : List Block} {x : Block}
    (h : NoAdjacentFree (pre ++ x :: post)) :
    NoAdjacentFree (pre ++ [x]) ∧ NoAdjacentFree (x :: post) := by
  rw [noAdjacentFree_iff_chain] at h
  rw [noAdjacentFree_iff_chain, noAdjacentFree_iff_chain]
  exact List.chain'_split.mp h

theorem noAdjacentFree_tail {x : Block} {l : List Block} (h : NoAdjacentFree (x :: l)) :
    NoAdjacentFree l := by
  cases l with
  | nil => trivial
  | cons y l => exact h.2

theorem noAdjacentFree_cons_of_id {x y : Block} {l : List Block} (hid : y.id = x.id)
    (h : NoAdjacentFree (x :: l)) : NoAdjacentFree (y :: l) := by
  cases l with
  | nil => trivial
  | cons z l => exact ⟨by rw [hid]; exact h.1, h.2⟩

theorem noAdjacentFree_concat_of_id {pre : List Block} {x y : Block} (hid : y.id = x.id)
    (h : NoAdjacentFree (pre ++ [x])) : NoAdjacentFree (pre ++ [y]) := by
  induction pre with
  | nil => trivial
  | cons a pre ih =>
    cases pre with
    | nil => exact ⟨by rw [hid]; exact h.1, trivial⟩
    | cons c pre => exact ⟨h.1, ih h.2⟩

/-- Merging to the right of a vacant block `x` when the blocks after it contain no two
neighbouring vacant blocks: at most the next block is absorbed. -/
theorem coalesce_free_right (x : Block) (post : List Block) (hx : x.id = none)
    (hpost : NoAdjacentFree post) :
    coalesce x post =
      match post with
      | [] => [x]
      | r :: post' =>
        if r.id = none then (⟨none, toDouble (x.size + r.size)⟩ : Block) :: post'
        else x :: post := by
  cases post with
  | nil => rfl
  | cons r post' =>
    by_cases hr : r.id = none
    · have hx' : ({ x with size := toDouble (x.size + r.size) } : Block)
          = ⟨none, toDouble (x.size + r.size)⟩ := by
        rw [← hx]
      simp only [hr, if_true]
      rw [coalesce, if_pos ⟨hx, hr⟩, hx']
      apply coalesce_of_noAdjacentFree
      exact noAdjacentFree_cons_of_id (x := r) (by rw [hr]) hpost
    · simp only [hr, if_false]
      rw [coalesce, if_neg (fun h => hr h.2), coalesce_of_noAdjacentFree r post' hpost]

theorem noAdjacentFree_concat_of_owned {pre : List Block} {x : Block} (y : Block)
    (hx : x.id ≠ none) (h : NoAdjacentFree (pre ++ [x])) : NoAdjacentFree (pre ++ [x, y]) := by
  induction pre with
  | nil => exact ⟨fun hc => hx hc.1, trivial⟩
  | cons a pre ih =>
    cases pre with
    | nil => exact ⟨h.1, ih h.2⟩
    | cons c pre => exact ⟨h.1, ih h.2⟩

theorem isFreeAt_append_length (pre post : List Block) (x : Block) :
    isFreeAt (pre ++ x :: post) pre.length = decide (x.id = none) := by
  have h : (pre ++ x :: post)[pre.length]? = some x := by
    rw [List.getElem?_append_right (le_refl _)]; simp
  simp [isFreeAt, h]

theorem isFreeAt_append_length_succ (pre post : List Block) (x y : Block) :
    isFreeAt (pre ++ x :: y :: post) (pre.length + 1) = decide (y.id = none) := by
  have := isFreeAt_append_length (pre ++ [x]) post y
  simpa using this

theorem isFreeAt_append_add (pre post : List Block) (k : Nat) :
    isFreeAt (pre ++ post) (pre.length + k) = isFreeAt post k := by
  have h : (pre ++ post)[pre.length + k]? = post[k]? := by
    rw [List.getElem?_append_right (by omega)]; simp
  simp [isFreeAt, h]

theorem isFreeAt_length (l : List Block) : isFreeAt l l.length = false := by
  simp [isFreeAt]

/-- Release of the only block owned by `id`, with the partition split at that block. The
size of the merged block is the sum that the loop computes, `doubleSum`. -/
theorem freeMemory_single (pre post : List Block) (b : Block) (id : String)
    (hadj : NoAdjacentFree (pre ++ b :: post)) (hid : b.id = some id)
    (hpre : ∀ c ∈ pre, c.id ≠ some id) (hpost : ∀ c ∈ post, c.id ≠ some id) :
    freeMemory (pre ++ b :: post) (some id) =
      (pre ++ b :: post).take (mergeStart (pre ++ b :: post) pre.length)
        ++ [⟨none, doubleSum (((pre ++ b :: post).drop
              (mergeStart (pre ++ b :: post) pre.length)).take
              (mergeEnd (pre ++ b :: post) pre.length
                - mergeStart (pre ++ b :: post) pre.length))⟩]
        ++ (pre ++ b :: post).drop (mergeEnd (pre ++ b :: post) pre.length) := by
  obtain ⟨h1, h2⟩ := noAdjacentFree_append_cons hadj
  have hpostadj : NoAdjacentFree post := noAdjacentFree_tail h2
  have hmap : (pre ++ b :: post).map (release (some id)) = pre ++ ⟨none, b.size⟩ :: post := by
    rw [List.map_append, List.map_cons, map_release_of_not_owner id pre hpre,
      map_release_of_not_owner id post hpost]
    simp [release, hid]
  rw [freeMemory_eq, hmap]
  rcases List.eq_nil_or_concat pre with rfl | ⟨L, l, rfl⟩
  · simp only [List.nil_append, coalesceAll]
    rw [coalesce_free_right _ post rfl hpostadj]
    cases post with
    | nil => simp [mergeStart, mergeEnd, isFreeAt, doubleSum]
    | cons r post' =>
      by_cases hr : r.id = none
      · simp [mergeStart, mergeEnd, isFreeAt, doubleSum, hr]
      · simp [mergeStart, mergeEnd, isFreeAt, doubleSum, hr]
  · simp only [List.concat_eq_append] at h1 ⊢
    have hL : NoAdjacentFree (L ++ [l]) := by
      have h1' : NoAdjacentFree (L ++ l :: [b]) := by simpa using h1
      exact (noAdjacentFree_append_cons h1').1
    have hlen : (L ++ [l]).length = L.length + 1 := by simp
    have happ : ∀ (y : Block), L ++ [l] ++ y :: post = L ++ l :: y :: post := by
      intro y; simp
    have hfl : isFreeAt (L ++ l :: b :: post) L.length = decide (l.id = none) :=
      isFreeAt_append_length L (b :: post) l
    rw [hlen, happ, happ]
    by_cases hl : l.id = none
    · rw [coalesceAll_append L l _ hL, coalesce, if_pos ⟨hl, rfl⟩]
      have hx' : ({ l with size := toDouble (l.size + (⟨none, b.size⟩ : Block).size) } : Block)
          = ⟨none, toDouble (l.size + b.size)⟩ := by rw [← hl]
      rw [hx', coalesce_free_right _ post rfl hpostadj]
      have hs : mergeStart (L ++ l :: b :: post) (L.length + 1) = L.length := by
        simp [mergeStart, hfl, hl]
      rw [hs]
      have he : mergeEnd (L ++ l :: b :: post) (L.length + 1)
          = if isFreeAt post 0 = true then L.length + 3 else L.length + 2 := by
        have h := isFreeAt_append_add L (l :: b :: post) 2
        have h' : isFreeAt (l :: b :: post) 2 = isFreeAt post 0 := by simp [isFreeAt]
        simp only [mergeEnd, h, h']
      rw [he]
      cases post with
      | nil => simp [isFreeAt, doubleSum]
      | cons r post' =>
        by_cases hr : r.id = none
        · simp [isFreeAt, doubleSum, hr]
        · simp [isFreeAt, doubleSum, hr]
    · have hLb : NoAdjacentFree (L ++ [l, (⟨none, b.size⟩ : Block)]) :=
        noAdjacentFree_concat_of_owned _ hl hL
      have hLb' : NoAdjacentFree ((L ++ [l]) ++ [(⟨none, b.size⟩ : Block)]) := by
        simpa using hLb
      have hc := coalesceAll_append (L ++ [l]) ⟨none, b.size⟩ post hLb'
      rw [happ] at hc
      rw [hc, coalesce_free_right _ post rfl hpostadj]
      have hs : mergeStart (L ++ l :: b :: post) (L.length + 1) = L.length + 1 := by
        simp [mergeStart, hfl, hl]
      rw [hs]
      have he : mergeEnd (L ++ l :: b :: post) (L.length + 1)
          = if isFreeAt post 0 = true then L.length + 3 else L.length + 2 := by
        have h := isFreeAt_append_add L (l :: b :: post) 2
        have h' : isFreeAt (l :: b :: post) 2 = isFreeAt post 0 := by simp [isFreeAt]
        simp only [mergeEnd, h, h']
      rw [he]
      have ht : List.take (L.length + 1) (L ++ l :: b :: post) = L ++ [l] := by
        rw [List.take_append]; simp
      have hd : ∀ k, List.drop (L.length + k) (L ++ l :: b :: post)
          = List.drop k (l :: b :: post) := by
        intro k; rw [List.drop_append]
      cases post with
      | nil => simp [isFreeAt, doubleSum, ht, hd]
      | cons r post' =>
        by_cases hr : r.id = none
        · simp [isFreeAt, doubleSum, hr, ht, hd]
        · simp [isFreeAt, doubleSum, hr, ht, hd]

/-- Release of the only block owned by `id`, the block at index `i`: the blocks from
`mergeStart` up to `mergeEnd` are replaced by one vacant block, whose size is the sum that
the loop computes, `doubleSum`. -/
theorem freeMemory_merged_range (memory : List Block) (id : String) (i : Nat) (b : Block)
    (hadj : NoAdjacentFree memory) (hb : memory[i]? = some b) (hid : b.id = some id)
    (huniq : ∀ j c, memory[j]? = some c → c.id = some id → j = i) :
    freeMemory memory (some id) =
      memory.take (mergeStart memory i)
        ++ [⟨none, doubleSum ((memory.drop (mergeStart memory i)).take
              (mergeEnd memory i - mergeStart memory i))⟩]
        ++ memory.drop (mergeEnd memory i) := by
  have hlt : i < memory.length := (List.getElem?_eq_some.mp hb).1
  have key : ∀ (pre post : List Block), memory = pre ++ b :: post → i = pre.length →
      freeMemory memory (some id) =
        memory.take (mergeStart memory i)
          ++ [⟨none, doubleSum ((memory.drop (mergeStart memory i)).take
                (mergeEnd memory i - mergeStart memory i))⟩]
          ++ memory.drop (mergeEnd memory i) := by
    intro pre post hm hi
    subst hm; subst hi
    apply freeMemory_single pre post b id hadj hid
    · intro c hc hcid
      obtain ⟨j, hj⟩ := List.getElem?_of_mem hc
      have hjlt : j < pre.length := (List.getElem?_eq_some.mp hj).1
      have hj' : (pre ++ b :: post)[j]? = some c := by
        rw [List.getElem?_append_left hjlt]; exact hj
      have := huniq j c hj' hcid
      omega
    · intro c hc hcid
      obtain ⟨j, hj⟩ := List.getElem?_of_mem hc
      have hj' : (pre ++ b :: post)[pre.length + (j + 1)]? = some c := by
        rw [List.getElem?_append_right (by omega)]
        simpa using hj
      have := huniq _ c hj' hcid
      omega
  exact key (memory.take i) (memory.drop (i + 1)) (eq_take_cons_drop hb)
    (by rw [List.length_take]; omega)

theorem foldl_toDouble_exact (rest : List Block) (acc : Int) (hacc : 0 ≤ acc)
    (hnn : ∀ c ∈ rest, 0 ≤ c.size) (hlt : acc + totalSize rest < 2 ^ 53) :
    rest.foldl (fun a block => toDouble (a + block.size)) acc = acc + totalSize rest := by
  induction rest generalizing acc with
  | nil => simp [totalSize]
  | cons c rest ih =>
    have hc : 0 ≤ c.size := hnn c (List.mem_cons_self _ _)
    have hrest : ∀ x ∈ rest, 0 ≤ x.size := fun x hx => hnn x (List.mem_cons_of_mem _ hx)
    have hrest0 := totalSize_nonneg rest hrest
    rw [totalSize_cons] at hlt
    have hexact : toDouble (acc + c.size) = acc + c.size :=
      toDouble_of_nonneg_of_lt _ (by omega) (by omega)
    rw [List.foldl_cons, hexact, ih (acc + c.size) (by omega) hrest (by omega), totalSize_cons]
    ring

/-- The sum that the loop computes is the exact sum when the sizes are not negative and
add up to less than `2 ^ 53`. -/
theorem doubleSum_eq_totalSize (l : List Block) (hnn : ∀ c ∈ l, 0 ≤ c.size)
    (hlt : totalSize l < 2 ^ 53) : doubleSum l = totalSize l := by
  cases l with
  | nil => simp [doubleSum, totalSize]
  | cons first rest =>
    rw [totalSize_cons] at hlt ⊢
    exact foldl_toDouble_exact rest first.size (hnn first (List.mem_cons_self _ _))
      (fun c hc => hnn c (List.mem_cons_of_mem _ hc)) hlt

/-- C10 (the claim as stated fails). `[{ X, -2^53 }, { S, 1 }, { free, 2^53 + 1024 }]` is
reachable, has no two adjacent vacant blocks and exactly one block of S, at index 1, whose
only vacant neighbour is block 2. `freeMemory('S')` replaces blocks 1 and 2 by one vacant
block of size `9007199254742016`, the double that the addition of line 116 stores, while
the sum of the sizes of the replaced blocks is `9007199254742017`. -/
theorem C10_merged_size_rounded_counterexample :
    run initialMemory
        [.allocate "X" (some (-9007199254740992)) "first", .allocate "S" (some 1) "first"]
      = [⟨some "X", -9007199254740992⟩, ⟨some "S", 1⟩, ⟨none, 9007199254742016⟩] ∧
    NoAdjacentFree [⟨some "X", -9007199254740992⟩, ⟨some "S", 1⟩, ⟨none, 9007199254742016⟩] ∧
    mergeStart [⟨some "X", -9007199254740992⟩, ⟨some "S", 1⟩, ⟨none, 9007199254742016⟩] 1 = 1 ∧
    mergeEnd [⟨some "X", -9007199254740992⟩, ⟨some "S", 1⟩, ⟨none, 9007199254742016⟩] 1 = 3 ∧
    freeMemory [⟨some "X", -9007199254740992⟩, ⟨some "S", 1⟩, ⟨none, 9007199254742016⟩]
        (some "S")
      = [⟨some "X", -9007199254740992⟩, ⟨none, 9007199254742016⟩] ∧
    freeMemory [⟨some "X", -9007199254740992⟩, ⟨some "S", 1⟩, ⟨none, 9007199254742016⟩]
        (some "S")
      ≠ [⟨some "X", -9007199254740992⟩,
         ⟨none, totalSize [⟨some "S", 1⟩, ⟨none, 9007199254742016⟩]⟩] := by
  decide

/-- C10 (amended). For every partition in which no two adjacent blocks are both vacant and
in which exactly one block, at index `i`, has the non-null id being released, if the sizes
of the blocks from `mergeStart` (index `i - 1` if that block is vacant, else `i`) up to
`mergeEnd` (past index `i + 1` if that block is vacant, else past `i`) are not negative and
add up to less than `2 ^ 53`, so that the additions of line 116 are exact, `freeMemory(id)`
returns the partition in which these blocks are replaced by one vacant block whose size is
the sum of their sizes; the blocks before and after that range are unchanged and in the
same order. -/
theorem C10_free_merges_neighbours (memory : List Block) (id : String) (i : Nat) (b : Block)
    (hadj : NoAdjacentFree memory) (hb : memory[i]? = some b) (hid : b.id = some id)
    (huniq : ∀ j c, memory[j]? = some c → c.id = some id → j = i)
    (hnn : ∀ c ∈ (memory.drop (mergeStart memory i)).take
      (mergeEnd memory i - mergeStart memory i), 0 ≤ c.size)
    (hlt : totalSize ((memory.drop (mergeStart memory i)).take
      (mergeEnd memory i - mergeStart memory i)) < 2 ^ 53) :
    freeMemory memory (some id) =
      memory.take (mergeStart memory i)
        ++ [⟨none, totalSize ((memory.drop (mergeStart memory i)).take
              (mergeEnd memory i - mergeStart memory i))⟩]
        ++ memory.drop (mergeEnd memory i) := by
  rw [freeMemory_merged_range memory id i b hadj hb hid huniq,
    doubleSum_eq_totalSize _ hnn hlt]

/-- Witness for the amended C10, on the examples of the claim: with no vacant neighbour
`[{ P1, 300 }, { P2, 724 }]` becomes `[{ free, 300 }, { P2, 724 }]`, and with one vacant
neighbour `[{ free, 300 }, { P2, 724 }]` becomes `[{ free, 1024 }]`. -/
theorem C10_free_merges_neighbours_witness :
    freeMemory [⟨some "P1", 300⟩, ⟨some "P2", 724⟩] (some "P1")
      = [⟨none, 300⟩, ⟨some "P2", 724⟩] ∧
    freeMemory [⟨none, 300⟩, ⟨some "P2", 724⟩] (some "P2") = [⟨none, 1024⟩] := by
  constructor
  · have h := C10_free_merges_neighbours [⟨some "P1", 300⟩, ⟨some "P2", 724⟩] "P1" 0
      ⟨some "P1", 300⟩ (by decide) (by decide) (by decide)
      (fun j c hj hc => by
        match j, hj with
        | 0, _ => rfl
        | 1, hj => simp at hj; subst hj; simp at hc
        | (j + 2), hj => simp at hj)
      (by decide) (by decide)
    rw [h]; decide
  · have h := C10_free_merges_neighbours [⟨none, 300⟩, ⟨some "P2", 724⟩] "P2" 1
      ⟨some "P2", 724⟩ (by decide) (by decide) (by decide)
      (fun j c hj hc => by
        match j, hj with
        | 0, hj => simp at hj; subst hj; simp at hc
        | 1, _ => rfl
        | (j + 2), hj => simp at hj)
      (by decide) (by decide)
    rw [h]; decide

/-- C11. For every partition whatsoever and every id (`null` included), in the partition
returned by one `freeMemory(id)` call the blocks at two consecutive indices are never
both vacant. -/
theorem C11_free_leaves_no_adjacent_free (memory : List Block) (id : Option String)
    (i : Nat) (a b : Block) (ha : (freeMemory memory id)[i]? = some a)
    (hb : (freeMemory memory id)[i + 1]? = some b) :
    ¬ (a.id = none ∧ b.id = none) :=
  (noAdjacentFree_iff _).mp (noAdjacentFree_freeMemory memory id) i a b ha hb

/-- Witness for C11: a partition with a run of four vacant blocks, a zero-size block and
a duplicate id; the release of A leaves `[{ free, 25 }, { B, 7 }, { free, 3 }]`. -/
theorem C11_free_leaves_no_adjacent_free_witness :
    freeMemory [⟨none, 5⟩, ⟨none, 0⟩, ⟨some "A", 9⟩, ⟨none, 1⟩, ⟨some "A", 10⟩, ⟨some "B", 7⟩,
        ⟨none, 3⟩] (some "A")
      = [⟨none, 25⟩, ⟨some "B", 7⟩, ⟨none, 3⟩] ∧
    ¬ ((⟨none, 25⟩ : Block).id = none ∧ (⟨some "B", 7⟩ : Block).id = none) :=
  ⟨by decide,
   C11_free_leaves_no_adjacent_free
    [⟨none, 5⟩, ⟨none, 0⟩, ⟨some "A", 9⟩, ⟨none, 1⟩, ⟨some "A", 10⟩, ⟨some "B", 7⟩, ⟨none, 3⟩]
    (some "A") 0 ⟨none, 25⟩ ⟨some "B", 7⟩ (by decide) (by decide)⟩

theorem coalesceAll_of_noAdjacentFree (blocks : List Block) (h : NoAdjacentFree blocks) :
    coalesceAll blocks = blocks := by
  cases blocks with
  | nil => rfl
  | cons cur rest => exact coalesce_of_noAdjacentFree cur rest h

/-- C12. For every partition in which no two adjacent blocks are both vacant, and every
non-null id that is not the id of any block in it, `freeMemory(id)` returns a partition
equal to the input. -/
theorem C12_free_unknown_id_unchanged (memory : List Block) (id : String)
    (hadj : NoAdjacentFree memory) (hno : ∀ b ∈ memory, b.id ≠ some id) :
    freeMemory memory (some id) = memory := by
  rw [freeMemory_eq, map_release_of_not_owner id memory hno,
    coalesceAll_of_noAdjacentFree memory hadj]

/-- Witness for C12: the release of the unknown id P9 in `[{ free, 300 }, { P2, 724 }]`. -/
theorem C12_free_unknown_id_unchanged_witness :
    freeMemory [⟨none, 300⟩, ⟨some "P2", 724⟩] (some "P9") = [⟨none, 300⟩, ⟨some "P2", 724⟩] :=
  C12_free_unknown_id_unchanged [⟨none, 300⟩, ⟨some "P2", 724⟩] "P9" (by decide) (by decide)

/-! ## Sizes of the blocks of reachable partitions -/

theorem sizeOk_release (id : Option String) (b : Block) (h : SizeOk b) :
    SizeOk (release id b) := by
  unfold release
  split
  · exact ⟨h.1, fun hne => absurd rfl hne⟩
  · exact h

theorem sizeOk_coalesce (cur : Block) (rest : List Block)
    (h : ∀ c ∈ cur :: rest, SizeOk c) : ∀ c ∈ coalesce cur rest, SizeOk c := by
  induction rest generalizing cur with
  | nil => simpa [coalesce] using h
  | cons next rest ih =>
    have hcur : SizeOk cur := h cur (List.mem_cons_self _ _)
    have hnext : SizeOk next := h next (List.mem_cons_of_mem _ (List.mem_cons_self _ _))
    have hrest : ∀ c ∈ rest, SizeOk c := fun c hc =>
      h c (List.mem_cons_of_mem _ (List.mem_cons_of_mem _ hc))
    by_cases hc : cur.id = none ∧ next.id = none
    · rw [coalesce, if_pos hc]
      apply ih
      intro c hmem
      rcases List.mem_cons.mp hmem with rfl | hmem
      · exact ⟨toDouble_nonneg _ (by have := hcur.1; have := hnext.1; omega),
          fun hne => absurd hc.1 hne⟩
      · exact hrest c hmem
    · rw [coalesce, if_neg hc]
      intro c hmem
      rcases List.mem_cons.mp hmem with rfl | hmem
      · exact hcur
      · exact ih next (fun c hc => h c (List.mem_cons_of_mem _ hc)) c hmem

theorem sizeOk_freeMemory (memory : List Block) (id : Option String)
    (h : ∀ c ∈ memory, SizeOk c) : ∀ c ∈ freeMemory memory id, SizeOk c := by
  rw [freeMemory_eq]
  have hmap : ∀ c ∈ memory.map (release id), SizeOk c := by
    intro c hc
    obtain ⟨c', hc', rfl⟩ := List.mem_map.mp hc
    exact sizeOk_release id c' (h c' hc')
  cases hm : memory.map (release id) with
  | nil => intro c hc; simp [coalesceAll] at hc
  | cons cur rest =>
    rw [hm] at hmap
    exact sizeOk_coalesce cur rest hmap

theorem sizeOk_allocateMemory (memory : List Block) (pid : String) (size : Option Int)
    (strategy : String) (hsize : ∀ n, size = some n → 0 ≤ n)
    (h : ∀ c ∈ memory, SizeOk c) :
    ∀ c ∈ allocateMemory memory pid size strategy, SizeOk c := by
  rcases allocateMemory_cases memory pid size strategy with
    h' | ⟨k, b, n, hs, hn, -, -, -, hfit, h'⟩
  · rw [h']; exact h
  · rw [h']
    have hpos : 0 < n := by have := hsize n hs; omega
    intro c hc
    simp only [List.mem_append, List.mem_cons, List.mem_singleton] at hc
    rcases hc with (hc | hc | hc | hc) | hc
    · exact h c (List.mem_of_mem_take hc)
    · subst hc; exact ⟨by simp only; omega, fun _ => hpos⟩
    · subst hc
      exact ⟨toDouble_nonneg _ (by have := hfit.2; omega), fun hne => absurd rfl hne⟩
    · simp at hc
    · exact h c (List.mem_of_mem_drop hc)

theorem sizeOk_step (memory : List Block) (op : Op) (hop : PositiveRequest op)
    (h : ∀ c ∈ memory, SizeOk c) : ∀ c ∈ step memory op, SizeOk c := by
  cases op with
  | allocate pid size strategy =>
    apply sizeOk_allocateMemory memory pid size strategy _ h
    intro n hs
    subst hs
    exact le_of_lt hop.2.1
  | free id => exact sizeOk_freeMemory memory id h

theorem sizeOk_run (memory : List Block) (ops : List Op)
    (hops : ∀ op ∈ ops, PositiveRequest op) (h : ∀ c ∈ memory, SizeOk c) :
    ∀ c ∈ run memory ops, SizeOk c := by
  induction ops generalizing memory with
  | nil => exact h
  | cons op ops ih =>
    exact ih (step memory op) (fun o ho => hops o (List.mem_cons_of_mem _ ho))
      (sizeOk_step memory op (hops op (List.mem_cons_self _ _)) h)

theorem sizeOk_initialMemory : ∀ c ∈ initialMemory, SizeOk c := by
  intro c hc
  simp only [initialMemory, List.mem_singleton] at hc
  subst hc
  exact ⟨by decide, fun hne => absurd rfl hne⟩

/-- C13 (the claim as stated fails). The two allocations of the scenario of the
specification, both with non-empty ids and positive sizes, reach
`[{ P1, 300 }, { P2, 724 }, { free, 0 }]`: a block of size 0 is retained in the state. -/
theorem C13_zero_size_block_counterexample :
    (∀ op ∈ [Op.allocate "P1" (some 300) "best", Op.allocate "P2" (some 724) "first"],
      PositiveRequest op) ∧
    run initialMemory [.allocate "P1" (some 300) "best", .allocate "P2" (some 724) "first"]
      = [⟨some "P1", 300⟩, ⟨some "P2", 724⟩, ⟨none, 0⟩] ∧
    ¬ (∀ b ∈ run initialMemory
        [.allocate "P1" (some 300) "best", .allocate "P2" (some 724) "first"], b.size > 0) := by
  decide

/-- C13 (amended). In every partition reachable from the initial partition by
`allocateMemory` calls with non-empty ids, positive sizes and strategy `'best'` or
`'first'` and by `freeMemory` calls, every block has size `>= 0`; blocks of size 0 are
retained in the state, and every such block is vacant. -/
theorem C13_sizes_nonnegative (ops : List Op) (hops : ∀ op ∈ ops, PositiveRequest op)
    (b : Block) (hb : b ∈ run initialMemory ops) :
    0 ≤ b.size ∧ (b.size = 0 → b.id = none) := by
  have h := sizeOk_run initialMemory ops hops sizeOk_initialMemory b hb
  refine ⟨h.1, fun h0 => ?_⟩
  by_contra hne
  have := h.2 hne
  omega

/-- Witness for the amended C13: the vacant block of size 0 left by the exact fit of the
scenario. -/
theorem C13_sizes_nonnegative_witness :
    0 ≤ (⟨none, 0⟩ : Block).size ∧
    ((⟨none, 0⟩ : Block).size = 0 → (⟨none, 0⟩ : Block).id = none) :=
  C13_sizes_nonnegative
    [.allocate "P1" (some 300) "best", .allocate "P2" (some 724) "first"]
    (by decide) ⟨none, 0⟩ (by decide)

/-! ## The fallback branch -/

theorem fallbackTaken_eq_false (memory : List Block) (pid : String) (size : Option Int)
    (strategy : String) : fallbackTaken memory pid size strategy = false := by
  cases size with
  | none => rfl
  | some n =>
    by_cases hv : n = 0 ∨ pid = ""
    · simp [fallbackTaken, hv]
    · rcases chooseIndex_range memory n strategy with h | ⟨k, b, h1, h2, h3⟩
      · simp [fallbackTaken, hv, h]
      · have hne : (k : Int) ≠ -1 := by omega
        have hsz : n ≤ b.size := h3.2
        simp only [fallbackTaken, h2, Int.toNat_ofNat, h1]
        rw [if_neg hv, if_pos hne]
        simp [hsz]

/-- C14. For every partition, every integer requested size and each strategy, whenever
the selection phase of `allocateMemory` ends with `chosenIndex !== -1`, `chosenIndex` is
a valid index of the partition, the block there is vacant and its size is `>=` the
requested size; hence, for every process id, the else branch of lines 90-92 is not
executed. -/
theorem C14_chosen_block_fits (memory : List Block) (n : Int) (strategy : String)
    (h : chooseIndex memory n strategy ≠ -1) :
    (∃ (k : Nat) (b : Block), chooseIndex memory n strategy = (k : Int) ∧ k < memory.length ∧
      memory[k]? = some b ∧ b.id = none ∧ b.size ≥ n) ∧
    ∀ pid : String, fallbackTaken memory pid (some n) strategy = false := by
  refine ⟨?_, fun pid => fallbackTaken_eq_false memory pid (some n) strategy⟩
  rcases chooseIndex_range memory n strategy with h' | ⟨k, b, h1, h2, h3⟩
  · exact absurd h' h
  · exact ⟨k, b, h2, (List.getElem?_eq_some.mp h1).1, h1, h3.1, h3.2⟩

/-- Witness for C14: the best-fit selection in `[{ P1, 300 }, { free, 724 }]` for a request
of 100 ends at index 1. -/
theorem C14_chosen_block_fits_witness :
    (∃ (k : Nat) (b : Block),
      chooseIndex [⟨some "P1", 300⟩, ⟨none, 724⟩] 100 "best" = (k : Int) ∧
      k < ([⟨some "P1", 300⟩, ⟨none, 724⟩] : List Block).length ∧
      ([⟨some "P1", 300⟩, ⟨none, 724⟩] : List Block)[k]? = some b ∧ b.id = none ∧
      b.size ≥ 100) ∧
    ∀ pid : String,
      fallbackTaken [⟨some "P1", 300⟩, ⟨none, 724⟩] pid (some 100) "best" = false :=
  C14_chosen_block_fits [⟨some "P1", 300⟩, ⟨none, 724⟩] 100 "best" (by decide)

/-! ## Repeated release and the blocks of other processes -/

theorem id_of_mem_coalesce (cur : Block) (rest : List Block) :
    ∀ c ∈ coalesce cur rest, ∃ c' ∈ cur :: rest, c'.id = c.id := by
  induction rest generalizing cur with
  | nil =>
    intro c hc
    simp only [coalesce, List.mem_singleton] at hc
    exact ⟨cur, List.mem_cons_self _ _, by rw [hc]⟩
  | cons next rest ih =>
    intro c hc
    by_cases hm : cur.id = none ∧ next.id = none
    · rw [coalesce, if_pos hm] at hc
      obtain ⟨c', hc', hid⟩ := ih _ c hc
      rcases List.mem_cons.mp hc' with rfl | hc'
      · exact ⟨cur, List.mem_cons_self _ _, hid⟩
      · exact ⟨c', List.mem_cons_of_mem _ (List.mem_cons_of_mem _ hc'), hid⟩
    · rw [coalesce, if_neg hm] at hc
      rcases List.mem_cons.mp hc with rfl | hc
      · exact ⟨c, List.mem_cons_self _ _, rfl⟩
      · obtain ⟨c', hc', hid⟩ := ih next c hc
        exact ⟨c', List.mem_cons_of_mem _ hc', hid⟩

theorem id_of_mem_coalesceAll (blocks : List Block) :
    ∀ c ∈ coalesceAll blocks, ∃ c' ∈ blocks, c'.id = c.id := by
  cases blocks with
  | nil => intro c hc; simp [coalesceAll] at hc
  | cons cur rest => exact id_of_mem_coalesce cur rest

theorem release_id_ne (id : String) (b : Block) : (release (some id) b).id ≠ some id := by
  unfold release
  split
  · simp
  · assumption

theorem not_owner_of_mem_freeMemory (memory : List Block) (id : String) :
    ∀ c ∈ freeMemory memory (some id), c.id ≠ some id := by
  intro c hc
  rw [freeMemory_eq] at hc
  obtain ⟨c', hc', hid⟩ := id_of_mem_coalesceAll _ c hc
  obtain ⟨c'', -, rfl⟩ := List.mem_map.mp hc'
  rw [← hid]
  exact release_id_ne id c''

/-- C15. `freeMemory` is idempotent: for every partition and every non-null id, a second
`freeMemory(id)` applied to the result of `freeMemory(id)` returns that same result. -/
theorem C15_free_idempotent (memory : List Block) (id : String) :
    freeMemory (freeMemory memory (some id)) (some id) = freeMemory memory (some id) := by
  rw [freeMemory_eq (freeMemory memory (some id)),
    map_release_of_not_owner id _ (not_owner_of_mem_freeMemory memory id),
    coalesceAll_of_noAdjacentFree _ (noAdjacentFree_freeMemory memory (some id))]

theorem filter_owned_coalesce (cur : Block) (rest : List Block) :
    (coalesce cur rest).filter (fun b => decide (b.id ≠ none))
      = (cur :: rest).filter (fun b => decide (b.id ≠ none)) := by
  induction rest generalizing cur with
  | nil => rfl
  | cons next rest ih =>
    by_cases hm : cur.id = none ∧ next.id = none
    · rw [coalesce, if_pos hm, ih]
      simp [List.filter_cons, hm.1, hm.2]
    · rw [coalesce, if_neg hm, List.filter_cons, ih]
      conv_rhs => rw [List.filter_cons]

theorem filter_owned_coalesceAll (blocks : List Block) :
    (coalesceAll blocks).filter (fun b => decide (b.id ≠ none))
      = blocks.filter (fun b => decide (b.id ≠ none)) := by
  cases blocks with
  | nil => rfl
  | cons cur rest => exact filter_owned_coalesce cur rest

theorem filter_owned_map_release (id : String) (l : List Block) :
    (l.map (release (some id))).filter (fun b => decide (b.id ≠ none))
      = l.filter (fun b => decide (b.id ≠ none ∧ b.id ≠ some id)) := by
  induction l with
  | nil => rfl
  | cons a rest ih =>
    rw [List.map_cons, List.filter_cons, List.filter_cons, ih]
    by_cases ha : a.id = some id
    · simp [release, ha]
    · simp [release, ha]

/-- C17. `freeMemory(id)` does not touch the blocks of other processes: for every
partition and every non-null id, the owned blocks (`id !== null`) of the result, as
`(id, size)` pairs in order, are the owned blocks of the input without the blocks whose
id is the released id, in the same order. -/
theorem C17_free_keeps_other_owners (memory : List Block) (id : String) :
    (freeMemory memory (some id)).filter (fun b => decide (b.id ≠ none))
      = memory.filter (fun b => decide (b.id ≠ none ∧ b.id ≠ some id)) := by
  rw [freeMemory_eq, filter_owned_coalesceAll, filter_owned_map_release]

/-! ## What the best-fit loop chooses -/

theorem bestFitLoop_frozen (n : Int) (l : List Block) (i : Nat) (c : Int) (best : Option Int)
    (h : ltBestSize n best = false) : bestFitLoop n l i c best = c := by
  induction l generalizing i with
  | nil => rfl
  | cons a rest ih =>
    have ha : ¬ (a.id = none ∧ a.size ≥ n ∧ ltBestSize n best = true) := by
      simp [h]
    rw [bestFitLoop, if_neg ha]
    exact ih (i + 1)

theorem not_exact_of_not_fits {n : Int} {x : Block} (h : ¬ Fits n x) :
    ¬ (x.id = none ∧ x.size = n) :=
  fun hx => h ⟨hx.1, le_of_eq hx.2.symm⟩

/-- While the running best is larger than the request, the loop ends at the first vacant
block of exactly the requested size, or at the last fitting block when there is none. -/
theorem bestFitLoop_open (n : Int) (l : List Block) (i : Nat) (c : Int) (best : Option Int)
    (hopen : ltBestSize n best = true) (hfit : ∃ b ∈ l, Fits n b) :
    ∃ (k : Nat) (b : Block), l[k]? = some b ∧
      bestFitLoop n l i c best = ((i + k : Nat) : Int) ∧ Fits n b ∧
      ((b.size = n ∧ ∀ j x, j < k → l[j]? = some x → ¬ (x.id = none ∧ x.size = n)) ∨
       ((∀ x ∈ l, ¬ (x.id = none ∧ x.size = n)) ∧
        ∀ j x, k < j → l[j]? = some x → ¬ Fits n x)) := by
  induction l generalizing i c best with
  | nil => simp at hfit
  | cons a rest ih =>
    by_cases ha : Fits n a
    · have hcond : a.id = none ∧ a.size ≥ n ∧ ltBestSize n best = true := ⟨ha.1, ha.2, hopen⟩
      rw [bestFitLoop, if_pos hcond]
      by_cases hex : a.size = n
      · have hfrozen : ltBestSize n (some a.size) = false := by simp [ltBestSize, hex]
        rw [bestFitLoop_frozen n rest (i + 1) _ _ hfrozen]
        exact ⟨0, a, by simp, by simp, ha, Or.inl ⟨hex, fun j x hj => by omega⟩⟩
      · have hgt : n < a.size := lt_of_le_of_ne ha.2 (fun h => hex h.symm)
        have hopen' : ltBestSize n (some a.size) = true := by simp [ltBestSize, hgt]
        by_cases hrest : ∃ b ∈ rest, Fits n b
        · obtain ⟨k, b, h1, h2, h3, h4⟩ := ih (i + 1) (i : Int) (some a.size) hopen' hrest
          refine ⟨k + 1, b, by simpa using h1, by rw [h2]; congr 1; omega, h3, ?_⟩
          rcases h4 with ⟨h5, h6⟩ | ⟨h5, h6⟩
          · left
            refine ⟨h5, fun j x hj hx => ?_⟩
            cases j with
            | zero => simp at hx; subst hx; exact fun hx => hex hx.2
            | succ j => exact h6 j x (by omega) (by simpa using hx)
          · right
            refine ⟨fun x hx => ?_, fun j x hj hx => ?_⟩
            · rcases List.mem_cons.mp hx with rfl | hx
              · exact fun hx => hex hx.2
              · exact h5 x hx
            · cases j with
              | zero => omega
              | succ j => exact h6 j x (by omega) (by simpa using hx)
        · have hno : ∀ b ∈ rest, ¬ Fits n b := fun b hb hf => hrest ⟨b, hb, hf⟩
          rw [bestFitLoop_no_fit n rest (i + 1) _ _ hno]
          refine ⟨0, a, by simp, by simp, ha, Or.inr ⟨fun x hx => ?_, fun j x hj hx => ?_⟩⟩
          · rcases List.mem_cons.mp hx with rfl | hx
            · exact fun hx => hex hx.2
            · exact not_exact_of_not_fits (hno x hx)
          · cases j with
            | zero => omega
            | succ j =>
              have hx' : rest[j]? = some x := by simpa using hx
              exact hno x (List.getElem?_mem hx')
    · have hcond : ¬ (a.id = none ∧ a.size ≥ n ∧ ltBestSize n best = true) :=
        fun h => ha ⟨h.1, h.2.1⟩
      rw [bestFitLoop, if_neg hcond]
      have hrest : ∃ b ∈ rest, Fits n b := by
        obtain ⟨b, hb, hf⟩ := hfit
        rcases List.mem_cons.mp hb with rfl | hb
        · exact absurd hf ha
        · exact ⟨b, hb, hf⟩
      obtain ⟨k, b, h1, h2, h3, h4⟩ := ih (i + 1) c best hopen hrest
      refine ⟨k + 1, b, by simpa using h1, by rw [h2]; congr 1; omega, h3, ?_⟩
      rcases h4 with ⟨h5, h6⟩ | ⟨h5, h6⟩
      · left
        refine ⟨h5, fun j x hj hx => ?_⟩
        cases j with
        | zero => simp at hx; subst hx; exact not_exact_of_not_fits ha
        | succ j => exact h6 j x (by omega) (by simpa using hx)
      · right
        refine ⟨fun x hx => ?_, fun j x hj hx => ?_⟩
        · rcases List.mem_cons.mp hx with rfl | hx
          · exact not_exact_of_not_fits ha
          · exact h5 x hx
        · cases j with
          | zero => omega
          | succ j => exact h6 j x (by omega) (by simpa using hx)

/-- C16. The best-fit branch compares the requested size with the running best, so for
every partition and requested size `n` (the positive ones included) with at least one
vacant block of size `>= n`, it chooses the lowest-index vacant block whose size equals
`n` exactly if such a block exists, and otherwise the highest-index vacant block with
size `>= n`, whatever its size. -/
theorem C16_best_fit_actual_choice (memory : List Block) (n : Int)
    (hfit : ∃ b ∈ memory, Fits n b) :
    ∃ (k : Nat) (b : Block), memory[k]? = some b ∧
      chooseIndex memory n "best" = (k : Int) ∧ Fits n b ∧
      ((b.size = n ∧ ∀ j x, j < k → memory[j]? = some x → ¬ (x.id = none ∧ x.size = n)) ∨
       ((∀ x ∈ memory, ¬ (x.id = none ∧ x.size = n)) ∧
        ∀ j x, k < j → memory[j]? = some x → ¬ Fits n x)) := by
  obtain ⟨k, b, h1, h2, h3, h4⟩ := bestFitLoop_open n memory 0 (-1) none rfl hfit
  exact ⟨k, b, h1, by simpa [chooseIndex] using h2, h3, h4⟩

/-- Witness for C16: in `[{ free, 100 }, { B, 10 }, { free, 200 }, { D, 10 }, { free, 704 }]`
a request of 50 has a fitting block; no vacant block has size 50 and the loop ends at
index 4, the last fitting block. -/
theorem C16_best_fit_actual_choice_witness :
    ∃ (k : Nat) (b : Block),
      ([⟨none, 100⟩, ⟨some "B", 10⟩, ⟨none, 200⟩, ⟨some "D", 10⟩, ⟨none, 704⟩]
        : List Block)[k]? = some b ∧
      chooseIndex [⟨none, 100⟩, ⟨some "B", 10⟩, ⟨none, 200⟩, ⟨some "D", 10⟩, ⟨none, 704⟩]
        50 "best" = (k : Int) ∧ Fits 50 b ∧
      ((b.size = 50 ∧ ∀ j x, j < k →
          ([⟨none, 100⟩, ⟨some "B", 10⟩, ⟨none, 200⟩, ⟨some "D", 10⟩, ⟨none, 704⟩]
            : List Block)[j]? = some x → ¬ (x.id = none ∧ x.size = 50)) ∨
       ((∀ x ∈ ([⟨none, 100⟩, ⟨some "B", 10⟩, ⟨none, 200⟩, ⟨some "D", 10⟩, ⟨none, 704⟩]
            : List Block), ¬ (x.id = none ∧ x.size = 50)) ∧
        ∀ j x, k < j →
          ([⟨none, 100⟩, ⟨some "B", 10⟩, ⟨none, 200⟩, ⟨some "D", 10⟩, ⟨none, 704⟩]
            : List Block)[j]? = some x → ¬ Fits 50 x)) :=
  C16_best_fit_actual_choice
    [⟨none, 100⟩, ⟨some "B", 10⟩, ⟨none, 200⟩, ⟨some "D", 10⟩, ⟨none, 704⟩] 50
    ⟨⟨none, 100⟩, by decide, by decide⟩

/-- C18. In every partition reachable from the initial partition by `allocateMemory` calls
with non-empty ids, positive sizes and strategy `'best'` or `'first'` and by `freeMemory`
calls, every block has size `>= 0` and every owned block (`id !== null`) has size `> 0`;
a block of size 0 can only be a vacant block. -/
theorem C18_owned_blocks_positive (ops : List Op) (hops : ∀ op ∈ ops, PositiveRequest op)
    (b : Block) (hb : b ∈ run initialMemory ops) :
    0 ≤ b.size ∧ (b.id ≠ none → 0 < b.size) ∧ (b.size = 0 → b.id = none) := by
  have h := sizeOk_run initialMemory ops hops sizeOk_initialMemory b hb
  refine ⟨h.1, h.2, fun h0 => ?_⟩
  by_contra hne
  have := h.2 hne
  omega

/-- Witness for C18: the block of P2 after the two allocations of the scenario of the
specification and the release of P1. -/
theorem C18_owned_blocks_positive_witness :
    0 ≤ (⟨some "P2", 724⟩ : Block).size ∧
    ((⟨some "P2", 724⟩ : Block).id ≠ none → 0 < (⟨some "P2", 724⟩ : Block).size) ∧
    ((⟨some "P2", 724⟩ : Block).size = 0 → (⟨some "P2", 724⟩ : Block).id = none) :=
  C18_owned_blocks_positive
    [.allocate "P1" (some 300) "best", .allocate "P2" (some 724) "first", .free (some "P1")]
    (by decide) ⟨some "P2", 724⟩ (by decide)

/-! ## The sum of the sizes -/

theorem sizeOk_step_of_noNegativeSize (memory : List Block) (op : Op)
    (hop : NoNegativeSize op) (h : ∀ c ∈ memory, SizeOk c) :
    ∀ c ∈ step memory op, SizeOk c := by
  cases op with
  | allocate pid size strategy =>
    apply sizeOk_allocateMemory memory pid size strategy _ h
    intro n hs
    subst hs
    exact hop
  | free id => exact sizeOk_freeMemory memory id h

theorem totalSize_step (memory : List Block) (op : Op) (hop : NoNegativeSize op)
    (hnn : ∀ c ∈ memory, 0 ≤ c.size) (hlt : totalSize memory < 2 ^ 53) :
    totalSize (step memory op) = totalSize memory := by
  cases op with
  | allocate pid size strategy =>
    apply totalSize_allocateMemory memory pid size strategy _ hnn hlt
    intro n hs
    subst hs
    exact hop
  | free id => exact totalSize_freeMemory memory id hnn hlt

theorem totalSize_run (memory : List Block) (ops : List Op)
    (hops : ∀ op ∈ ops, NoNegativeSize op) (hok : ∀ c ∈ memory, SizeOk c)
    (hlt : totalSize memory < 2 ^ 53) :
    totalSize (run memory ops) = totalSize memory := by
  induction ops generalizing memory with
  | nil => rfl
  | cons op ops ih =>
    have hop : NoNegativeSize op := hops op (List.mem_cons_self _ _)
    have hstep := totalSize_step memory op hop (fun c hc => (hok c hc).1) hlt
    have hrun : run memory (op :: ops) = run (step memory op) ops := rfl
    rw [hrun, ih (step memory op) (fun o ho => hops o (List.mem_cons_of_mem _ ho))
      (sizeOk_step_of_noNegativeSize memory op hop hok) (by rw [hstep]; exact hlt), hstep]

/-- C1 (the claim as stated fails). One `allocateMemory` call on the initial partition with
the integer size `-100000000000000000000` passes the guard of line 24 and stores
`[{ X, -1e20 }, { free, 1e20 }]`: the subtraction of line 87, `1024 - (-1e20)`, is rounded to
the double `1e20`, and the sizes add up to 0, not to 1024. -/
theorem C1_huge_negative_size_counterexample :
    run initialMemory [.allocate "X" (some (-100000000000000000000)) "best"]
      = [⟨some "X", -100000000000000000000⟩, ⟨none, 100000000000000000000⟩] ∧
    totalSize (run initialMemory [.allocate "X" (some (-100000000000000000000)) "best"]) = 0 ∧
    totalSize (run initialMemory [.allocate "X" (some (-100000000000000000000)) "best"])
      ≠ 1024 := by
  decide

/-- C1 (amended). Starting from the initial partition `[{ id: null, size: 1024 }]`, after
every call of a finite sequence of `allocateMemory` and `freeMemory` calls (the state after
the first `k` calls, for every `k`) in which no `allocateMemory` call has a negative size,
the sizes of the blocks add up to 1024. It holds for every process id, every size that is
`NaN`, zero or a positive integer, and every strategy. -/
theorem C1_total_size_invariant (ops : List Op) (hops : ∀ op ∈ ops, NoNegativeSize op)
    (k : Nat) : totalSize (run initialMemory (ops.take k)) = 1024 := by
  rw [totalSize_run initialMemory (ops.take k)
    (fun op hop => hops op (List.mem_of_mem_take hop)) sizeOk_initialMemory (by decide)]
  rfl

/-- Witness for the amended C1: the scenario of the specification (allocate P1 300,
allocate P2 724, release P1, a request of 1000 that does not fit), followed by a request
of size 0 and one whose size is not a number; the state after the first three calls. -/
theorem C1_total_size_invariant_witness :
    totalSize (run initialMemory
      ([Op.allocate "P1" (some 300) "best", Op.allocate "P2" (some 724) "first",
        Op.free (some "P1"), Op.allocate "P3" (some 1000) "best",
        Op.allocate "X" (some 0) "best", Op.allocate "Y" none "first"].take 3)) = 1024 :=
  C1_total_size_invariant
    [Op.allocate "P1" (some 300) "best", Op.allocate "P2" (some 724) "first",
     Op.free (some "P1"), Op.allocate "P3" (some 1000) "best",
     Op.allocate "X" (some 0) "best", Op.allocate "Y" none "first"]
    (by decide) 3

end MemorySimulator
